import Mathlib

/-!
Verification of the console file-explorer program (src/2241002027.cpp).

The program is a line-oriented REPL over a local filesystem: each command
performs a syscall-level action and appends a description of the action to a
persistent activity log.  This file gives a shallow embedding of the program:

* the filesystem is a finite tree `Entry` (files carry content bytes and a
  modification time, directories carry a readability flag standing for the
  permission consulted by `opendir`/`fopen`);
* paths are component lists (`Path`); OS path resolution against the current
  working directory is modelled by `resolve` (no `..` handling, which no
  claim exercises);
* `readdir` enumeration is the directory's children in list order; the
  synthetic `.` and `..` entries the OS reports are skipped by the same
  name guards the C++ source uses;
* the activity log is modelled at two levels.  `Sys.log` is the trace of
  (timestamp, description) records the program has written, in the order of
  the `logAction` calls; the per-operation logging results are stated over
  that trace.  The file the records actually land in is
  `"activity_log.txt"`, opened by relative path on every call (source
  lines 39 and 267) and hence resolved against the current working
  directory: the file-accurate layer (`logWrite`, `showHistoryF`,
  `dispatchArgsF`, `runCmdsF`) places the log bytes inside the filesystem
  tree, so `cd` redirects subsequent records to another directory's file
  and the other operations can overwrite or remove a log file like any
  ordinary file; `strftime` formatting is abstracted by `fmtTime`;
* each C++ function keeps its source name (`changeDir`, `copyFile`,
  `removeRecursive`, `searchFile`, `touchFile`, `makeDir`, `moveFile`,
  `listFiles`, `printPwd`, `showHistory`, `split`, `logAction`), and the
  dispatch loop of `main` is `dispatchArgs` / `runCmds`.

POSIX facts encoded in the embedding: `fopen(p,"wb")` truncates the file at
`p` before any bytes are read from the source handle; `fopen(p,"ab")`
followed by `fclose` with no intervening write changes neither the content
nor the modification time of an existing file; `rmdir` succeeds only on an
empty directory; a failed `remove`/`rmdir` leaves the entry in place.
-/

namespace FileExplorer

/-- Filesystem entry: a file with content bytes and a modification time, or a
directory with a readability flag (the permission `opendir` checks) and a
list of named children in directory‑read order. -/
inductive Entry where
  | file (content : List Nat) (mtime : Nat)
  | dir (readable : Bool) (children : List (String × Entry))

/-- A path, as the list of its name components from the filesystem root. -/
abbrev Path := List String

/-- First child of a directory-children list with the given name, in
directory order — the entry the OS resolves a name to. -/
def findChild (n : String) : List (String × Entry) → Option Entry
  | [] => none
  | (m, c) :: t => if m = n then some c else findChild n t

/-- Replace (with `some`) or drop (with `none`) the first child named `n`. -/
def setChild (n : String) (r : Option Entry) : List (String × Entry) → List (String × Entry)
  | [] => []
  | (m, c) :: t =>
      if m = n then
        match r with
        | some e => (m, e) :: t
        | none => t
      else (m, c) :: setChild n r t

/-- Resolve a path to the entry it names, descending through directories. -/
def lookupE : Entry → Path → Option Entry
  | e, [] => some e
  | Entry.dir _ ch, n :: rest =>
      match findChild n ch with
      | some c => lookupE c rest
      | none => none
  | Entry.file _ _, _ :: _ => none

/-- Update the tree at a path: `some e` replaces (or, at a fresh final
component of an existing directory, inserts) the entry, `none` erases it.
Missing intermediate components leave the tree unchanged. -/
def updAt : Entry → Path → Option Entry → Entry
  | e, [], r => r.getD e
  | Entry.dir rd ch, n :: rest, r =>
      (match findChild n ch with
       | some c =>
           let newC : Option Entry :=
             match rest with
             | [] => r
             | _ :: _ => some (updAt c rest r)
           Entry.dir rd (setChild n newC ch)
       | none =>
           match rest, r with
           | [], some e => Entry.dir rd (ch ++ [(n, e)])
           | _, _ => Entry.dir rd ch)
  | e, _ :: _, _ => e

/-- Whether an entry is a directory (the `S_IFDIR` test). -/
def isDirE : Entry → Bool
  | Entry.dir _ _ => true
  | Entry.file _ _ => false

/-- The C++ `isDirectory`: `stat` the path and test `S_IFDIR`; a path that
cannot be resolved yields `false`. -/
def isDirectory (root : Entry) (p : Path) : Bool :=
  match lookupE root p with
  | some e => isDirE e
  | none => false

/-- Content of the file at a path, if the path names a file (the condition
for `fopen(path,"rb")` to succeed). -/
def contentAt (root : Entry) (p : Path) : Option (List Nat) :=
  match lookupE root p with
  | some (Entry.file c _) => some c
  | _ => none

/-- Modification time of the file at a path, if it names a file. -/
def mtimeAt (root : Entry) (p : Path) : Option Nat :=
  match lookupE root p with
  | some (Entry.file _ m) => some m
  | _ => none

/-- Whether `fopen(p,"wb")` succeeds: the final component's parent must be an
existing directory and `p` itself must not name a directory. -/
def canOpenWrite (root : Entry) (p : Path) : Bool :=
  !p.isEmpty &&
  (match lookupE root p.dropLast with
   | some (Entry.dir _ _) => true
   | _ => false) &&
  (match lookupE root p with
   | some (Entry.dir _ _) => false
   | _ => true)

/-- Effect of `fopen(p,"wb")`: create or truncate the file at `p` to empty
content with the current time as its modification time. -/
def openWrite (root : Entry) (p : Path) (now : Nat) : Option Entry :=
  if canOpenWrite root p then some (updAt root p (some (Entry.file [] now))) else none

/-- Substring test on character lists, modelling `std::string::find(pat) !=
npos`: `pat` occurs (contiguously) in the list. -/
def containsSub (pat : List Char) : List Char → Bool
  | [] => pat.isPrefixOf []
  | c :: t => pat.isPrefixOf (c :: t) || containsSub pat t

/-- The C++ `name.find(pattern) != string::npos` test. -/
def strContains (hay pat : String) : Bool := containsSub pat.data hay.data

/-- Split a character list at separator characters (separators dropped). -/
def splitChars (sep : Char → Bool) : List Char → List (List Char)
  | [] => [[]]
  | c :: t =>
      let r := splitChars sep t
      if sep c then [] :: r
      else
        match r with
        | h :: t2 => (c :: h) :: t2
        | [] => [[c]]

/-- The C++ `split`: break an input line into whitespace-delimited words
(`stringstream >>` skips runs of whitespace). -/
def split (line : String) : List String :=
  ((splitChars (fun c => c == ' ' || c == '\t' || c == '\r' || c == '\n') line.data).map
      String.mk).filter (fun w => !(w == ""))

/-- Nonempty, non-`.` components of a raw path string. -/
def pathComponents (raw : String) : List String :=
  ((splitChars (fun c => c == '/') raw.data).map String.mk).filter
    (fun c => !(c == "") && !(c == "."))

/-- The chunked `fread`/`fwrite` loop of `copyFile` with an explicit fuel
(one unit per loop iteration; `copyLoop` supplies enough): each iteration
reads up to 4096 bytes from the stream and writes them out. -/
def copyLoopFuel : Nat → List Nat → List Nat
  | _, [] => []
  | 0, _ => []
  | fuel + 1, l => l.take 4096 ++ copyLoopFuel fuel (l.drop 4096)

/-- Bytes written by the `copyFile` read/write loop given the source bytes. -/
def copyLoop (l : List Nat) : List Nat := copyLoopFuel l.length l

/-- The C++ `copyFile(src, dest)`: open `src` for reading (fails unless it
names a file), open `dest` for writing (`"wb"`, truncating it — this happens
before any byte is read, so the bytes subsequently streamed are read from
the post-truncation filesystem), stream the bytes in 4096-byte chunks, log,
and return `true`; on either open failure return `false` without logging.
Result: (new filesystem, return value, log descriptions appended). -/
def copyFile (root : Entry) (src dest : Path) (srcLabel destLabel : String) (now : Nat) :
    Entry × Bool × List String :=
  match contentAt root src with
  | none => (root, false, [])
  | some _ =>
      match openWrite root dest now with
      | none => (root, false, [])
      | some root1 =>
          let data := (contentAt root1 src).getD []
          let root2 := updAt root1 dest (some (Entry.file (copyLoop data) now))
          (root2, true, ["Copied file: " ++ srcLabel ++ " -> " ++ destLabel])

mutual
/-- The C++ `removeRecursive` acting on the entry at full-path string `p`
(descent on the snapshot subtree; sound absent concurrent modification).
A file: `remove` it, then log.  An unreadable directory: `opendir` fails and
the function returns before logging.  A readable directory: `readdir` the
children (skipping the synthetic `.`/`..` names), recurse on each, `rmdir`
(which succeeds only if every child is now gone), then log.  Returns the
remaining entry (`none` if fully removed) and the appended log lines. -/
def removeEntry (p : String) : Entry → Option Entry × List String
  | Entry.file _ _ => (none, ["Removed: " ++ p])
  | Entry.dir false ch => (some (Entry.dir false ch), [])
  | Entry.dir true ch =>
      let r := removeChildren p ch
      (if r.1.isEmpty then none else some (Entry.dir true r.1), r.2 ++ ["Removed: " ++ p])

/-- The `readdir` loop of `removeRecursive`: entries named `.` or `..` are
skipped (and hence left in place), every other child is removed recursively. -/
def removeChildren (p : String) : List (String × Entry) → List (String × Entry) × List String
  | [] => ([], [])
  | (n, c) :: t =>
      if n = "." ∨ n = ".." then
        let rt := removeChildren p t
        ((n, c) :: rt.1, rt.2)
      else
        let rc := removeEntry (p ++ "/" ++ n) c
        let rt := removeChildren p t
        ((match rc.1 with
          | none => rt.1
          | some e => (n, e) :: rt.1), rc.2 ++ rt.2)
end

/-- The C++ `removeRecursive(path)` on the whole filesystem: if the path
`stat`s as a directory, run the recursive removal on its subtree and write
the residue back; if it names a file, `remove` it and log; if it does not
resolve, `remove` fails (silently) but the action is still logged. -/
def removeRecursive (root : Entry) (p : Path) (label : String) : Entry × List String :=
  match lookupE root p with
  | some (Entry.dir rd ch) =>
      let r := removeEntry label (Entry.dir rd ch)
      (updAt root p r.1, r.2)
  | some (Entry.file _ _) => (updAt root p none, ["Removed: " ++ label])
  | none => (root, ["Removed: " ++ label])

mutual
/-- The C++ `searchFile(pattern, path)` acting on the entry at full-path
string `path`: `opendir` fails on a file or an unreadable directory (no
output, no log); otherwise every `readdir` entry other than the synthetic
`.`/`..` is tested — its full path is printed when its name contains the
pattern — directories are descended into, and one log line is appended
after the directory is fully processed.  Returns (printed lines, log). -/
def searchFile (pattern : String) (path : String) : Entry → List String × List String
  | Entry.dir true ch =>
      let r := searchChildren pattern path ch
      (r.1, r.2 ++ ["Searched for: " ++ pattern ++ " in " ++ path])
  | _ => ([], [])

/-- The `readdir` loop of `searchFile`. -/
def searchChildren (pattern : String) (path : String) :
    List (String × Entry) → List String × List String
  | [] => ([], [])
  | (n, c) :: t =>
      if n = "." ∨ n = ".." then searchChildren pattern path t
      else
        let fullPath := path ++ "/" ++ n
        let hit := if strContains n pattern then [fullPath] else []
        let sub := if isDirE c then searchFile pattern fullPath c else ([], [])
        let rest := searchChildren pattern path t
        (hit ++ sub.1 ++ rest.1, sub.2 ++ rest.2)
end

mutual
/-- Enumeration, in traversal order, of the (full path, name) of every
directory entry reachable from `path` through readable directories,
excluding the synthetic `.`/`..` entries.  This is the domain over which
the search claim quantifies; it is independent of the pattern. -/
def reachableEntries (path : String) : Entry → List (String × String)
  | Entry.dir true ch => reachableChildren path ch
  | _ => []

/-- Children part of `reachableEntries`. -/
def reachableChildren (path : String) : List (String × Entry) → List (String × String)
  | [] => []
  | (n, c) :: t =>
      if n = "." ∨ n = ".." then reachableChildren path t
      else
        (path ++ "/" ++ n, n) :: (reachableEntries (path ++ "/" ++ n) c ++
          reachableChildren path t)
end

mutual
/-- Full paths of the readable directories a search started at `path`
enters, in the order their log lines are written (children before parent). -/
def searchLogPaths (path : String) : Entry → List String
  | Entry.dir true ch => searchLogChildren path ch ++ [path]
  | _ => []

/-- Children part of `searchLogPaths`. -/
def searchLogChildren (path : String) : List (String × Entry) → List String
  | [] => []
  | (n, c) :: t =>
      (if n = "." ∨ n = ".." then [] else searchLogPaths (path ++ "/" ++ n) c) ++
        searchLogChildren path t
end

mutual
/-- Number of readable directories entered by a traversal that starts at the
given entry and descends only through readable directories. -/
def countReadableDirs : Entry → Nat
  | Entry.dir true ch => 1 + countReadableDirsL ch
  | _ => 0

/-- Children part of `countReadableDirs`. -/
def countReadableDirsL : List (String × Entry) → Nat
  | [] => 0
  | (n, c) :: t =>
      (if n = "." ∨ n = ".." then 0 else countReadableDirs c) + countReadableDirsL t
end

mutual
/-- Depth-first postorder listing of the full paths of an entry and all its
descendants: every child path precedes its parent's, the entry's own path
is last. -/
def postorderPaths (path : String) : Entry → List String
  | Entry.file _ _ => [path]
  | Entry.dir _ ch => postorderPathsL path ch ++ [path]

/-- Children part of `postorderPaths` (synthetic names skipped). -/
def postorderPathsL (path : String) : List (String × Entry) → List String
  | [] => []
  | (n, c) :: t =>
      (if n = "." ∨ n = ".." then [] else postorderPaths (path ++ "/" ++ n) c) ++
        postorderPathsL path t
end

/-- Full paths of the proper descendants of an entry at `path`. -/
def descendantPaths (path : String) : Entry → List String
  | Entry.file _ _ => []
  | Entry.dir _ ch => postorderPathsL path ch

mutual
/-- Full paths for which a recursive removal starting at the entry appends a
log line, in log order: every visited path except an unreadable directory
(whose `opendir` failure returns before the log call) and everything below
one. -/
def loggedPaths (path : String) : Entry → List String
  | Entry.file _ _ => [path]
  | Entry.dir true ch => loggedChildren path ch ++ [path]
  | Entry.dir false _ => []

/-- Children part of `loggedPaths`. -/
def loggedChildren (path : String) : List (String × Entry) → List String
  | [] => []
  | (n, c) :: t =>
      (if n = "." ∨ n = ".." then [] else loggedPaths (path ++ "/" ++ n) c) ++
        loggedChildren path t
end

mutual
/-- Every directory in the tree is readable: the hypothesis under which no
`opendir` during a recursive removal fails. -/
def allReadable : Entry → Bool
  | Entry.file _ _ => true
  | Entry.dir rd ch => rd && allReadableL ch

/-- Children part of `allReadable`. -/
def allReadableL : List (String × Entry) → Bool
  | [] => true
  | (_, c) :: t => allReadable c && allReadableL t
end

/-- A legal directory-entry name: not a synthetic `.`/`..` and without a
path separator. -/
def nameOk (n : String) : Bool :=
  !(n == ".") && !(n == "..") && !(n.data.contains '/')

mutual
/-- Well-formed tree: within each directory the names are distinct and
legal — the shape every real filesystem directory has. -/
def wfE : Entry → Bool
  | Entry.file _ _ => true
  | Entry.dir _ ch => decide ((ch.map Prod.fst).Nodup) && wfL ch

/-- Children part of `wfE`. -/
def wfL : List (String × Entry) → Bool
  | [] => true
  | (n, c) :: t => nameOk n && wfE c && wfL t
end

/-- Process state: the filesystem tree, the current working directory of the
process, and the activity-log records (timestamp, description) in file
order. -/
structure Sys where
  root : Entry
  cwd : Path
  log : List (Nat × String)

/-- The C++ `logAction`, at the record-trace level: `Sys.log` collects the
timestamped records the program writes, in call order, which is what the
per-operation logging results below quantify over.  The source opens the
cwd-relative `activity_log.txt` on every call (line 39); which file a
record lands in is modelled faithfully by `logWrite` further down. -/
def logAction (s : Sys) (now : Nat) (msg : String) : Sys :=
  { s with log := s.log ++ [(now, msg)] }

/-- A `perror(tag)` line; the errno text is abstracted. -/
def perrorLine (tag : String) : String := tag ++ ": error"

/-- OS resolution of a raw path argument: absolute paths resolve from the
root, others from the current working directory; `.` components vanish
(`..` is not modelled; no claim exercises it). -/
def resolve (s : Sys) (raw : String) : Path :=
  if raw.data.head? = some '/' then pathComponents raw else s.cwd ++ pathComponents raw

/-- The C++ `changeDir`: `chdir` succeeds exactly when the path resolves to
a directory; on success print and log, on failure only `perror`. -/
def changeDir (s : Sys) (now : Nat) (raw : String) : Sys × List String :=
  let p := resolve s raw
  if isDirectory s.root p then
    (logAction { s with cwd := p } now ("Changed directory to: " ++ raw),
     ["Changed directory to: " ++ raw])
  else (s, [perrorLine "cd"])

/-- Printable form of the current working directory. -/
def renderPath (p : Path) : String :=
  "/" ++ String.intercalate "/" p

/-- The C++ `printPwd`: print the working directory, then log
unconditionally (the 1024-byte `getcwd` buffer is assumed sufficient). -/
def printPwd (s : Sys) (now : Nat) : Sys × List String :=
  (logAction s now "Checked current directory.", [renderPath s.cwd])

/-- Size `stat` reports for an entry (a nominal block size for
directories). -/
def entrySize : Entry → Nat
  | Entry.file c _ => c.length
  | Entry.dir _ _ => 4096

/-- The per-entry lines `listFiles` prints (synthetic `.`/`..` skipped;
every real entry `stat`s successfully in the model). -/
def listLines : List (String × Entry) → List String
  | [] => []
  | (n, c) :: t =>
      if n = "." ∨ n = ".." then listLines t
      else
        ((if isDirE c then "[DIR]  " else "       ") ++ n ++ "\t(" ++
          toString (entrySize c) ++ " bytes)") :: listLines t

/-- The C++ `listFiles`: `opendir` fails on a non-directory or an unreadable
directory (`perror`, no log); otherwise print the listing and log. -/
def listFiles (s : Sys) (now : Nat) (raw : String) : Sys × List String :=
  match lookupE s.root (resolve s raw) with
  | some (Entry.dir true ch) =>
      (logAction s now ("Listed contents of: " ++ raw),
       ("Contents of " ++ raw ++ ":") :: listLines ch)
  | _ => (s, [perrorLine "ls"])

/-- The `cp` branch of `main`: run `copyFile`; the function itself logged on
success; the caller only prints the success line or `perror`. -/
def cpCmd (s : Sys) (now : Nat) (srcRaw destRaw : String) : Sys × List String :=
  let r := copyFile s.root (resolve s srcRaw) (resolve s destRaw) srcRaw destRaw now
  ({ s with root := r.1, log := s.log ++ r.2.2.map (fun m => (now, m)) },
   if r.2.1 then ["Copied: " ++ srcRaw ++ " -> " ++ destRaw] else [perrorLine "cp"])

/-- Whether `rename` may place an entry at `dest`: the parent must be an
existing directory and `dest` must not name a directory. -/
def canMoveTo (root : Entry) (dest : Path) : Bool :=
  !dest.isEmpty &&
  (match lookupE root dest.dropLast with
   | some (Entry.dir _ _) => true
   | _ => false) &&
  (match lookupE root dest with
   | some (Entry.dir _ _) => false
   | _ => true)

/-- Success condition of the `rename` syscall in the model. -/
def mvOk (root : Entry) (src dest : Path) : Bool :=
  (lookupE root src).isSome && canMoveTo root dest

/-- The C++ `moveFile`: `rename(src, dest)`; on success print and log, on
failure only `perror`. -/
def moveFile (s : Sys) (now : Nat) (srcRaw destRaw : String) : Sys × List String :=
  let src := resolve s srcRaw
  let dest := resolve s destRaw
  match lookupE s.root src with
  | some e =>
      if canMoveTo s.root dest then
        (logAction { s with root := updAt (updAt s.root src none) dest (some e) } now
           ("Moved/Renamed: " ++ srcRaw ++ " -> " ++ destRaw),
         ["Moved: " ++ srcRaw ++ " -> " ++ destRaw])
      else (s, [perrorLine "mv"])
  | none => (s, [perrorLine "mv"])

/-- The `rm` branch of `main`: run `removeRecursive` (which prints nothing
and does its own per-path logging). -/
def rmCmd (s : Sys) (now : Nat) (raw : String) : Sys × List String :=
  let r := removeRecursive s.root (resolve s raw) raw
  ({ s with root := r.1, log := s.log ++ r.2.map (fun m => (now, m)) }, [])

/-- The `search` branch of `main`: `searchFile(args[1])` — the traversal
root defaults to `"."`, the current working directory. -/
def searchCmd (s : Sys) (now : Nat) (pat : String) : Sys × List String :=
  let e := (lookupE s.root s.cwd).getD (Entry.dir false [])
  let r := searchFile pat "." e
  ({ s with log := s.log ++ r.2.map (fun m => (now, m)) }, r.1)

/-- Success condition of `fopen(path,"ab")` in `touchFile`. -/
def touchOk (root : Entry) (p : Path) : Bool :=
  match lookupE root p with
  | some (Entry.file _ _) => true
  | some (Entry.dir _ _) => false
  | none => canOpenWrite root p

/-- The C++ `touchFile`: `fopen(path,"ab")` and immediately `fclose`.  An
existing file is opened and closed with no write, so its content and
modification time are untouched; an absent file is created empty with the
current time.  On success print and log, on failure only `perror`. -/
def touchFile (s : Sys) (now : Nat) (raw : String) : Sys × List String :=
  let p := resolve s raw
  match lookupE s.root p with
  | some (Entry.file _ _) =>
      (logAction s now ("Created or updated file: " ++ raw),
       ["File created/updated: " ++ raw])
  | some (Entry.dir _ _) => (s, [perrorLine "touch"])
  | none =>
      if canOpenWrite s.root p then
        (logAction { s with root := updAt s.root p (some (Entry.file [] now)) } now
           ("Created or updated file: " ++ raw),
         ["File created/updated: " ++ raw])
      else (s, [perrorLine "touch"])

/-- Success condition of `mkdir` in the model: the parent exists and the
path is not already taken. -/
def mkdirOk (root : Entry) (p : Path) : Bool :=
  !p.isEmpty &&
  (match lookupE root p.dropLast with
   | some (Entry.dir _ _) => true
   | _ => false) &&
  (lookupE root p).isNone

/-- The C++ `makeDir`: attempt `mkdir`, print the outcome, and log
unconditionally (the `logAction` call sits after the `if`/`else`). -/
def makeDir (s : Sys) (now : Nat) (raw : String) : Sys × List String :=
  let p := resolve s raw
  if mkdirOk s.root p then
    (logAction { s with root := updAt s.root p (some (Entry.dir true [])) } now
       ("Created directory: " ++ raw),
     ["Directory created: " ++ raw])
  else
    (logAction s now ("Created directory: " ++ raw), [perrorLine "mkdir"])

/-- Rendering of `strftime("%Y-%m-%d %H:%M:%S")`; the civil-time formatting
is abstracted, only injectivity-irrelevant structure is kept. -/
def fmtTime (t : Nat) : String := toString t

/-- One line of the activity-log file, as `logAction` writes it. -/
def renderLogLine (r : Nat × String) : String :=
  "[" ++ fmtTime r.1 ++ "] " ++ r.2

/-- The C++ `showHistory` at the record-trace level: with no record ever
written it prints the no-history message, otherwise it renders every trace
record between the banner lines.  The source actually re-reads the
cwd-relative `activity_log.txt` (line 267), whose contents diverge from
the trace once the working directory has changed or a log file has been
overwritten or removed — that behaviour is modelled faithfully by
`showHistoryF` further down. -/
def showHistory (s : Sys) : List String :=
  if s.log.isEmpty then ["No activity history found yet."]
  else
    "----------- ACTIVITY LOG -----------" ::
      (s.log.map renderLogLine ++ ["------------------------------------"])

/-- The C++ `showHelp` output (abbreviated; it performs no logging). -/
def showHelp : List String :=
  ["Available Commands:", "  ls [path]        - List files and folders",
   "  search <name>    - Search file by name", "  exit             - Exit explorer"]

/-- One iteration of the dispatch chain in `main`, given the tokenized
line: returns the next state and the lines printed.  (`exit`/`quit` are
handled by the read loop `runCmds`.) -/
def dispatchArgs (s : Sys) (now : Nat) (args : List String) : Sys × List String :=
  match args with
  | [] => (s, [])
  | cmd :: rest =>
      if cmd = "help" then (s, showHelp)
      else if cmd = "ls" then listFiles s now (rest.headD ".")
      else if cmd = "cd" then
        (match rest with
         | p :: _ => changeDir s now p
         | [] => (s, ["Usage: cd <dir>"]))
      else if cmd = "pwd" then printPwd s now
      else if cmd = "cp" then
        (match rest with
         | a :: b :: _ => cpCmd s now a b
         | _ => (s, ["Usage: cp <src> <dest>"]))
      else if cmd = "mv" then
        (match rest with
         | a :: b :: _ => moveFile s now a b
         | _ => (s, ["Usage: mv <src> <dest>"]))
      else if cmd = "rm" then
        (match rest with
         | p :: _ => rmCmd s now p
         | [] => (s, ["Usage: rm <path>"]))
      else if cmd = "touch" then
        (match rest with
         | p :: _ => touchFile s now p
         | [] => (s, ["Usage: touch <file>"]))
      else if cmd = "mkdir" then
        (match rest with
         | p :: _ => makeDir s now p
         | [] => (s, ["Usage: mkdir <dir>"]))
      else if cmd = "search" then
        (match rest with
         | p :: _ => searchCmd s now p
         | [] => (s, ["Usage: search <pattern>"]))
      else if cmd = "history" then (s, showHistory s)
      else (s, ["Unknown command. Type 'help' for list."])

/-- The read-tokenize-dispatch loop of `main` over a list of (timestamp,
input line) pairs; empty lines are skipped, `exit`/`quit` stop the loop. -/
def runCmds : Sys → List (Nat × String) → Sys
  | s, [] => s
  | s, (now, line) :: rest =>
      match split line with
      | [] => runCmds s rest
      | cmd :: args =>
          if cmd = "exit" ∨ cmd = "quit" then s
          else runCmds (dispatchArgs s now (cmd :: args)).1 rest

/-- Whether `opendir` on a path succeeds: it names a readable directory. -/
def lsOk (root : Entry) (p : Path) : Bool :=
  match lookupE root p with
  | some (Entry.dir true _) => true
  | _ => false

/-- Whether a `rm` command fully succeeds: the target existed and nothing
remains at its path afterwards. -/
def rmOk (s : Sys) (raw : String) : Bool :=
  (lookupE s.root (resolve s raw)).isSome &&
    (lookupE (removeRecursive s.root (resolve s raw) raw).1 (resolve s raw)).isNone

/-- Whether the filesystem operation a tokenized line dispatches to succeeds
at the syscall level in the given state (`help`/`history`/usage errors and
unknown commands are not filesystem operations and count as not
successful). -/
def cmdSuccess (s : Sys) (now : Nat) (args : List String) : Bool :=
  match args with
  | [] => false
  | cmd :: rest =>
      if cmd = "ls" then lsOk s.root (resolve s (rest.headD "."))
      else if cmd = "cd" then
        (match rest with
         | p :: _ => isDirectory s.root (resolve s p)
         | [] => false)
      else if cmd = "pwd" then true
      else if cmd = "cp" then
        (match rest with
         | a :: b :: _ =>
             (copyFile s.root (resolve s a) (resolve s b) a b now).2.1
         | _ => false)
      else if cmd = "mv" then
        (match rest with
         | a :: b :: _ => mvOk s.root (resolve s a) (resolve s b)
         | _ => false)
      else if cmd = "rm" then
        (match rest with
         | p :: _ => rmOk s p
         | [] => false)
      else if cmd = "touch" then
        (match rest with
         | p :: _ => touchOk s.root (resolve s p)
         | [] => false)
      else if cmd = "mkdir" then
        (match rest with
         | p :: _ => mkdirOk s.root (resolve s p)
         | [] => false)
      else if cmd = "search" then
        (match rest with
         | _ :: _ => lsOk s.root s.cwd
         | [] => false)
      else false

/-- Number of successful filesystem operations a command sequence performs,
threading the state exactly as `runCmds` does. -/
def succCount : Sys → List (Nat × String) → Nat
  | _, [] => 0
  | s, (now, line) :: rest =>
      match split line with
      | [] => succCount s rest
      | cmd :: args =>
          if cmd = "exit" ∨ cmd = "quit" then 0
          else
            (if cmdSuccess s now (cmd :: args) then 1 else 0) +
              succCount (dispatchArgs s now (cmd :: args)).1 rest

end FileExplorer

/-! ### The file-accurate logging layer

Both `logAction` (source line 39) and `showHistory` (line 267) open
`"activity_log.txt"` by relative path, which the OS resolves against the
process's current working directory — a directory `cd` mutates.  The layer
below therefore places the log bytes inside the filesystem tree itself:
each record is written into `activity_log.txt` of the directory current at
the time of the `logAction` call, and the history display re-reads the
current directory's file.  The log file is an ordinary file, so the other
operations can list, copy over, move, or remove it like any file. -/

namespace FileExplorer

/-- Byte content of one activity-log line as `logAction` writes it: the
rendered record followed by the newline `endl` emits.  Characters are
stored as their code points; every record the program itself writes is
ASCII text, where code points coincide with the file's bytes. -/
def encodeLine (r : Nat × String) : List Nat :=
  (renderLogLine r).data.map Char.toNat ++ [10]

/-- The path `"activity_log.txt"` resolves to: the log file of the given
working directory. -/
def logPath (cwd : Path) : Path := cwd ++ ["activity_log.txt"]

/-- One `logAction` call in the file-accurate model: open the current
working directory's `activity_log.txt` in append mode (created if absent),
write one line, close.  The write stamps the file's modification time.
The open fails — and the record is silently dropped, matching the
source's `if (!log) return;` — when the path names a directory or the
working directory itself no longer resolves to a directory. -/
def logWrite (root : Entry) (cwd : Path) (r : Nat × String) : Entry :=
  match lookupE root (logPath cwd) with
  | some (Entry.file b _) =>
      updAt root (logPath cwd) (some (Entry.file (b ++ encodeLine r) r.1))
  | some (Entry.dir _ _) => root
  | none =>
      if isDirectory root cwd then
        updAt root (logPath cwd) (some (Entry.file (encodeLine r) r.1))
      else root

/-- The `getline` loop of `showHistory`: split file bytes into lines at
newline bytes (fuel is one unit per line; `getLines` supplies enough). -/
def getLinesFuel : Nat → List Nat → List (List Nat)
  | _, [] => []
  | 0, _ => []
  | f + 1, b =>
      b.takeWhile (fun c => !(c == 10)) ::
        getLinesFuel f ((b.dropWhile (fun c => !(c == 10))).drop 1)

/-- Lines of a log file's byte content, as the `getline` loop reads them. -/
def getLines (b : List Nat) : List (List Nat) := getLinesFuel b.length b

/-- Decode stored bytes back to the printed line. -/
def decodeLine (l : List Nat) : String := String.mk (l.map Char.ofNat)

/-- The C++ `showHistory` in the file-accurate model: open the current
working directory's `activity_log.txt`; if the open fails (no such file)
print the no-history message, otherwise print the file's lines between the
banner lines.  (A directory of that name opens read-only under POSIX and
the first `getline` then fails, so only the banners are printed.) -/
def showHistoryF (root : Entry) (cwd : Path) : List String :=
  match lookupE root (logPath cwd) with
  | some (Entry.file b _) =>
      "----------- ACTIVITY LOG -----------" ::
        ((getLines b).map decodeLine ++ ["------------------------------------"])
  | some (Entry.dir _ _) =>
      ["----------- ACTIVITY LOG -----------", "------------------------------------"]
  | none => ["No activity history found yet."]

/-- Process state in the file-accurate model: the filesystem tree and the
working directory.  The activity log is not separate state — it lives in
the tree as ordinary files. -/
structure SysF where
  root : Entry
  cwd : Path

/-- One dispatch in the file-accurate model: run the operation as in
`dispatchArgs`, then write each record it produced into `activity_log.txt`
of the directory current after the operation — every operation's
`logAction` calls run in the directory the operation ends in; in
particular `changeDir` logs after a successful `chdir`, so its record
lands in the new directory's file.  `history` re-reads the current
directory's file.  The source interleaves each in-operation log write with
the operation's remaining filesystem actions; writing them after the
operation is observationally equal unless an operation re-reads bytes of
the very log file it is concurrently appending to mid-traversal (such as
removing the working directory itself), a run nothing below relies on. -/
def dispatchArgsF (s : SysF) (now : Nat) (args : List String) : SysF × List String :=
  match args with
  | "history" :: _ => (s, showHistoryF s.root s.cwd)
  | _ =>
      let r := dispatchArgs ⟨s.root, s.cwd, []⟩ now args
      (⟨(r.1.log).foldl (fun acc rec => logWrite acc r.1.cwd rec) r.1.root, r.1.cwd⟩,
        r.2)

/-- The read-tokenize-dispatch loop of `main` in the file-accurate model;
empty lines are skipped, `exit`/`quit` stop the loop. -/
def runCmdsF : SysF → List (Nat × String) → SysF
  | s, [] => s
  | s, (now, line) :: rest =>
      match split line with
      | [] => runCmdsF s rest
      | cmd :: args =>
          if cmd = "exit" ∨ cmd = "quit" then s
          else runCmdsF (dispatchArgsF s now (cmd :: args)).1 rest

end FileExplorer

/-! ### Concrete states used to witness and to refute claims -/

namespace FileExplorer

/-- An empty filesystem with the working directory at the root and an empty
log. -/
def exSysEmpty : Sys := ⟨Entry.dir true [], [], []⟩

/-- A state whose root holds a directory `d` containing a file `xfile`. -/
def exSysSearch : Sys :=
  ⟨Entry.dir true [("d", Entry.dir true [("xfile", Entry.file [] 0)])], [], []⟩

/-- A directory holding one file `a` (contents `[1]`). -/
def exDirA : Entry := Entry.dir true [("a", Entry.file [1] 0)]

/-- A root holding `exDirA` under the name `d`. -/
def exRootD : Entry := Entry.dir true [("d", exDirA)]

/-- A root holding an unreadable directory `u` with a file inside. -/
def exRootU : Entry := Entry.dir true [("u", Entry.dir false [("x", Entry.file [] 0)])]

/-- A root holding a file `a` with contents `[1]` and modification time 5. -/
def exRootCopy : Entry := Entry.dir true [("a", Entry.file [1] 5)]

/-- A state whose root holds a file `f` with contents `[9]` and modification
time 5. -/
def exSysTouch : Sys := ⟨Entry.dir true [("f", Entry.file [9] 5)], [], []⟩

end FileExplorer

/-! ### Generic lemmas about path lookup and update -/

namespace FileExplorer

theorem lookupE_append (e : Entry) (p q : Path) :
    lookupE e (p ++ q) = (lookupE e p).bind (fun x => lookupE x q) := by
  induction p generalizing e with
  | nil => simp [lookupE]
  | cons n rest ih =>
      cases e with
      | file c m => simp [lookupE]
      | dir rd ch =>
          simp only [List.cons_append, lookupE]
          cases findChild n ch with
          | none => simp
          | some c => simp [ih]

theorem findChild_mem {n : String} {ch : List (String × Entry)} {c : Entry}
    (h : findChild n ch = some c) : (n, c) ∈ ch := by
  induction ch with
  | nil => simp [findChild] at h
  | cons hd t ih =>
      obtain ⟨m, e⟩ := hd
      by_cases hm : m = n
      · subst hm
        simp [findChild] at h
        subst h
        exact List.mem_cons_self _ _
      · simp [findChild, hm] at h
        exact List.mem_cons_of_mem _ (ih h)

theorem setChild_of_not_found {n : String} {ch : List (String × Entry)} (r : Option Entry)
    (h : findChild n ch = none) : setChild n r ch = ch := by
  induction ch with
  | nil => rfl
  | cons hd t ih =>
      obtain ⟨m, e⟩ := hd
      by_cases hm : m = n
      · subst hm; simp [findChild] at h
      · simp [findChild, hm] at h
        simp [setChild, hm, ih h]

theorem findChild_setChild_found {n : String} {ch : List (String × Entry)} {c : Entry}
    (e' : Entry) (h : findChild n ch = some c) :
    findChild n (setChild n (some e') ch) = some e' := by
  induction ch with
  | nil => simp [findChild] at h
  | cons hd t ih =>
      obtain ⟨m, e⟩ := hd
      by_cases hm : m = n
      · subst hm; simp [setChild, findChild]
      · simp [findChild, hm] at h
        simp [setChild, findChild, hm, ih h]

theorem findChild_setChild_other {n m : String} {ch : List (String × Entry)} (r : Option Entry)
    (hnm : m ≠ n) : findChild m (setChild n r ch) = findChild m ch := by
  induction ch with
  | nil => cases r <;> rfl
  | cons hd t ih =>
      obtain ⟨k, e⟩ := hd
      have hkm : (k = m) ∨ ¬ (k = m) := em _
      by_cases hk : k = n
      · subst hk
        have hne : ¬ k = m := fun h => hnm (h ▸ rfl)
        cases r with
        | some x => simp [setChild, findChild, hne]
        | none => simp [setChild, findChild, hne]
      · rcases hkm with hkm | hkm
        · subst hkm
          simp [setChild, hk, findChild]
        · simp [setChild, hk, findChild, hkm, ih]

theorem findChild_append_self {n : String} {ch : List (String × Entry)} (e : Entry)
    (h : findChild n ch = none) : findChild n (ch ++ [(n, e)]) = some e := by
  induction ch with
  | nil => simp [findChild]
  | cons hd t ih =>
      obtain ⟨m, c⟩ := hd
      by_cases hm : m = n
      · subst hm; simp [findChild] at h
      · simp only [findChild, if_neg hm] at h
        simp only [List.cons_append, findChild, if_neg hm]
        exact ih h

theorem findChild_append_other {n m : String} {ch : List (String × Entry)} (e : Entry)
    (hnm : m ≠ n) : findChild m (ch ++ [(n, e)]) = findChild m ch := by
  induction ch with
  | nil =>
      have : ¬ n = m := fun h => hnm h.symm
      simp [findChild, this]
  | cons hd t ih =>
      obtain ⟨k, c⟩ := hd
      by_cases hk : k = m <;> simp [findChild, hk, ih]

theorem findChild_eq_none_of_not_mem {n : String} {ch : List (String × Entry)}
    (h : n ∉ ch.map Prod.fst) : findChild n ch = none := by
  induction ch with
  | nil => rfl
  | cons hd t ih =>
      obtain ⟨m, c⟩ := hd
      simp only [List.map_cons, List.mem_cons] at h
      push_neg at h
      have hm : ¬ m = n := fun hx => h.1 hx.symm
      simp [findChild, hm, ih h.2]

theorem findChild_setChild_none {n : String} {ch : List (String × Entry)}
    (hnd : (ch.map Prod.fst).Nodup) :
    findChild n (setChild n none ch) = none := by
  induction ch with
  | nil => rfl
  | cons hd t ih =>
      obtain ⟨m, e⟩ := hd
      simp only [List.map_cons, List.nodup_cons] at hnd
      by_cases hm : m = n
      · subst hm
        simp only [setChild, if_pos rfl]
        exact findChild_eq_none_of_not_mem hnd.1
      · simp [setChild, hm, findChild, ih hnd.2, hm]

end FileExplorer

namespace FileExplorer

theorem lookup_updAt_set {root : Entry} {p : Path} {e : Entry} (e' : Entry)
    (h : lookupE root p = some e) :
    lookupE (updAt root p (some e')) p = some e' := by
  induction p generalizing root with
  | nil => simp [updAt, lookupE]
  | cons n rest ih =>
      cases root with
      | file c m => simp [lookupE] at h
      | dir rd ch =>
          simp only [lookupE] at h
          cases hf : findChild n ch with
          | none => simp [hf] at h
          | some c =>
              simp only [hf] at h
              cases rest with
              | nil =>
                  simp only [lookupE] at h
                  simp [updAt, hf, lookupE, findChild_setChild_found e' hf]
              | cons b rest2 =>
                  simp [updAt, hf, lookupE, findChild_setChild_found _ hf, ih h]

theorem lookup_updAt_insert {root : Entry} {p : Path} {rd2 : Bool}
    {ch2 : List (String × Entry)} (e' : Entry)
    (h : lookupE root p.dropLast = some (Entry.dir rd2 ch2)) (hp : p ≠ []) :
    lookupE (updAt root p (some e')) p = some e' := by
  induction p generalizing root rd2 ch2 with
  | nil => exact absurd rfl hp
  | cons n rest ih =>
      cases rest with
      | nil =>
          simp only [List.dropLast_single, lookupE] at h
          cases h
          cases hf : findChild n ch2 with
          | some c => simp [updAt, hf, lookupE, findChild_setChild_found e' hf]
          | none => simp [updAt, hf, lookupE, findChild_append_self e' hf]
      | cons b rest2 =>
          have hdl : (n :: b :: rest2).dropLast = n :: (b :: rest2).dropLast := rfl
          rw [hdl] at h
          cases root with
          | file c m => simp [lookupE] at h
          | dir rd ch =>
              simp only [lookupE] at h
              cases hf : findChild n ch with
              | none => simp [hf] at h
              | some c =>
                  simp only [hf] at h
                  simp [updAt, hf, lookupE, findChild_setChild_found _ hf,
                    ih h (by simp)]

theorem lookup_updAt_other {root : Entry} {p q : Path} (r : Option Entry)
    (h1 : ¬ p <+: q) (h2 : ¬ q <+: p) :
    lookupE (updAt root p r) q = lookupE root q := by
  induction q generalizing p root with
  | nil => exact absurd List.nil_prefix h2
  | cons m q2 ih =>
      cases p with
      | nil => exact absurd List.nil_prefix h1
      | cons n p2 =>
          cases root with
          | file c mt => simp [updAt]
          | dir rd ch =>
              by_cases hnm : n = m
              · subst hnm
                have hp2 : ¬ p2 <+: q2 := fun hx => h1 (List.cons_prefix_cons.mpr ⟨rfl, hx⟩)
                have hq2 : ¬ q2 <+: p2 := fun hx => h2 (List.cons_prefix_cons.mpr ⟨rfl, hx⟩)
                have hp2ne : p2 ≠ [] := by
                  rintro rfl
                  exact hp2 List.nil_prefix
                cases hf : findChild n ch with
                | some c =>
                    cases p2 with
                    | nil => exact absurd rfl hp2ne
                    | cons b p3 =>
                        simp [updAt, hf, lookupE, findChild_setChild_found _ hf, ih hp2 hq2]
                | none =>
                    cases p2 with
                    | nil => exact absurd rfl hp2ne
                    | cons b p3 =>
                        cases r with
                        | none => simp [updAt, hf]
                        | some x => simp [updAt, hf]
              · have hne : m ≠ n := fun h => hnm h.symm
                cases hf : findChild n ch with
                | some c =>
                    simp [updAt, hf, lookupE, findChild_setChild_other _ hne]
                | none =>
                    cases p2 with
                    | nil =>
                        cases r with
                        | none => simp [updAt, hf]
                        | some x =>
                            simp [updAt, hf, lookupE, findChild_append_other _ hne]
                    | cons b p3 =>
                        cases r with
                        | none => simp [updAt, hf]
                        | some x => simp [updAt, hf]

theorem wfE_dir {rd : Bool} {ch : List (String × Entry)}
    (h : wfE (Entry.dir rd ch) = true) :
    (ch.map Prod.fst).Nodup ∧ wfL ch = true := by
  simp only [wfE, Bool.and_eq_true, decide_eq_true_eq] at h
  exact h

theorem wfL_mem {ch : List (String × Entry)} {n : String} {c : Entry}
    (h : wfL ch = true) (hm : (n, c) ∈ ch) : nameOk n = true ∧ wfE c = true := by
  induction ch with
  | nil => simp at hm
  | cons hd t ih =>
      obtain ⟨m, e⟩ := hd
      simp only [wfL, Bool.and_eq_true] at h
      rcases List.mem_cons.mp hm with heq | ht
      · cases heq
        exact ⟨h.1.1, h.1.2⟩
      · exact ih h.2 ht

theorem wf_findChild {rd : Bool} {ch : List (String × Entry)} {n : String} {c : Entry}
    (h : wfE (Entry.dir rd ch) = true) (hf : findChild n ch = some c) : wfE c = true :=
  (wfL_mem (wfE_dir h).2 (findChild_mem hf)).2

theorem wf_lookup {root : Entry} {p : Path} {e : Entry}
    (h : wfE root = true) (hl : lookupE root p = some e) : wfE e = true := by
  induction p generalizing root with
  | nil => simp only [lookupE, Option.some.injEq] at hl; exact hl ▸ h
  | cons n rest ih =>
      cases root with
      | file c m => simp [lookupE] at hl
      | dir rd ch =>
          simp only [lookupE] at hl
          cases hf : findChild n ch with
          | none => simp [hf] at hl
          | some c =>
              simp only [hf] at hl
              exact ih (wf_findChild h hf) hl

theorem allReadable_dir {rd : Bool} {ch : List (String × Entry)}
    (h : allReadable (Entry.dir rd ch) = true) :
    rd = true ∧ allReadableL ch = true := by
  simp only [allReadable, Bool.and_eq_true] at h
  exact h

theorem allReadableL_mem {ch : List (String × Entry)} {n : String} {c : Entry}
    (h : allReadableL ch = true) (hm : (n, c) ∈ ch) : allReadable c = true := by
  induction ch with
  | nil => simp at hm
  | cons hd t ih =>
      obtain ⟨m, e⟩ := hd
      simp only [allReadableL, Bool.and_eq_true] at h
      rcases List.mem_cons.mp hm with heq | ht
      · cases heq; exact h.1
      · exact ih h.2 ht

theorem nameOk_not_synthetic {n : String} (h : nameOk n = true) :
    ¬ (n = "." ∨ n = "..") := by
  simp only [nameOk, Bool.and_eq_true, Bool.not_eq_true', beq_eq_false_iff_ne, ne_eq] at h
  rintro (rfl | rfl)
  · exact h.1.1 rfl
  · exact h.1.2 rfl

theorem nameOk_no_sep {n : String} (h : nameOk n = true) : '/' ∉ n.data := by
  simp only [nameOk, Bool.and_eq_true, Bool.not_eq_true'] at h
  intro hc
  have h2 : n.data.contains '/' = true := List.elem_iff.mpr hc
  rw [h.2] at h2
  cases h2

theorem copyLoopFuel_eq {fuel : Nat} {l : List Nat} (h : l.length ≤ fuel) :
    copyLoopFuel fuel l = l := by
  induction fuel generalizing l with
  | zero =>
      have : l = [] := List.eq_nil_of_length_eq_zero (Nat.le_zero.mp h)
      subst this; rfl
  | succ f ih =>
      cases l with
      | nil => rfl
      | cons a t =>
          simp only [copyLoopFuel]
          rw [ih (by simp only [List.length_drop]; omega)]
          exact List.take_append_drop _ _

theorem copyLoop_eq (l : List Nat) : copyLoop l = l :=
  copyLoopFuel_eq le_rfl

end FileExplorer

/-! ### Recursive removal: log shape, residue, postorder -/

namespace FileExplorer

theorem lookup_updAt_erase {root : Entry} {p : Path} {e : Entry}
    (hwf : wfE root = true) (h : lookupE root p = some e) (hp : p ≠ []) :
    lookupE (updAt root p none) p = none := by
  induction p generalizing root e with
  | nil => exact absurd rfl hp
  | cons n rest ih =>
      cases root with
      | file c m => simp [lookupE] at h
      | dir rd ch =>
          simp only [lookupE] at h
          cases hf : findChild n ch with
          | none => simp [hf] at h
          | some c =>
              simp only [hf] at h
              cases rest with
              | nil =>
                  simp [updAt, hf, lookupE, findChild_setChild_none (wfE_dir hwf).1]
              | cons b rest2 =>
                  simp [updAt, hf, lookupE, findChild_setChild_found _ hf,
                    ih (wf_findChild hwf hf) h (by simp)]

mutual
theorem removeEntry_log (p : String) (e : Entry) :
    (removeEntry p e).2 = (loggedPaths p e).map (fun d => "Removed: " ++ d) := by
  cases e with
  | file c m => rfl
  | dir rd ch =>
      cases rd with
      | false => rfl
      | true =>
          simp only [removeEntry, loggedPaths, List.map_append, List.map_cons, List.map_nil]
          rw [removeChildren_log p ch]

theorem removeChildren_log (p : String) (ch : List (String × Entry)) :
    (removeChildren p ch).2 = (loggedChildren p ch).map (fun d => "Removed: " ++ d) := by
  cases ch with
  | nil => rfl
  | cons hd t =>
      obtain ⟨n, c⟩ := hd
      by_cases hs : n = "." ∨ n = ".."
      · simp [removeChildren, loggedChildren, hs, removeChildren_log p t]
      · simp [removeChildren, loggedChildren, hs, removeChildren_log p t,
          removeEntry_log (p ++ "/" ++ n) c]
end

mutual
theorem removeEntry_resid (p : String) (e : Entry)
    (hr : allReadable e = true) (hw : wfE e = true) :
    (removeEntry p e).1 = none := by
  cases e with
  | file c m => rfl
  | dir rd ch =>
      cases rd with
      | false => simp [allReadable] at hr
      | true =>
          have h2 := (allReadable_dir hr).2
          have h3 := (wfE_dir hw).2
          simp [removeEntry, removeChildren_resid p ch h2 h3]

theorem removeChildren_resid (p : String) (ch : List (String × Entry))
    (hr : allReadableL ch = true) (hw : wfL ch = true) :
    (removeChildren p ch).1 = [] := by
  cases ch with
  | nil => rfl
  | cons hd t =>
      obtain ⟨n, c⟩ := hd
      simp only [allReadableL, Bool.and_eq_true] at hr
      simp only [wfL, Bool.and_eq_true] at hw
      have hs : ¬ (n = "." ∨ n = "..") := nameOk_not_synthetic hw.1.1
      simp [removeChildren, hs, removeChildren_resid p t hr.2 hw.2,
        removeEntry_resid (p ++ "/" ++ n) c hr.1 hw.1.2]
end

mutual
theorem loggedPaths_eq_postorder (path : String) (e : Entry)
    (hr : allReadable e = true) :
    loggedPaths path e = postorderPaths path e := by
  cases e with
  | file c m => rfl
  | dir rd ch =>
      cases rd with
      | false => simp [allReadable] at hr
      | true =>
          simp only [loggedPaths, postorderPaths]
          rw [loggedChildren_eq_postorder path ch (allReadable_dir hr).2]

theorem loggedChildren_eq_postorder (path : String) (ch : List (String × Entry))
    (hr : allReadableL ch = true) :
    loggedChildren path ch = postorderPathsL path ch := by
  cases ch with
  | nil => rfl
  | cons hd t =>
      obtain ⟨n, c⟩ := hd
      simp only [allReadableL, Bool.and_eq_true] at hr
      by_cases hs : n = "." ∨ n = ".."
      · simp [loggedChildren, postorderPathsL, hs,
          loggedChildren_eq_postorder path t hr.2]
      · simp [loggedChildren, postorderPathsL, hs,
          loggedChildren_eq_postorder path t hr.2,
          loggedPaths_eq_postorder (path ++ "/" ++ n) c hr.1]
end

theorem postorderPaths_eq_concat (path : String) (e : Entry) :
    postorderPaths path e = descendantPaths path e ++ [path] := by
  cases e with
  | file c m => rfl
  | dir rd ch => rfl

end FileExplorer

namespace FileExplorer

/-- C3: for a path naming a directory, recursive delete removes all children
depth-first before the parent — the produced log is the postorder listing
(each proper descendant's record strictly precedes the final record, which
is the parent's own) — for a file it removes it directly (the postorder of a
file is the single record), and, assuming every directory involved is
readable (no syscall fails) and no concurrent modification, afterwards
neither the path nor any original descendant resolves on the filesystem. -/
theorem claim3_removeRecursive (root : Entry) (p : Path) (label : String) (e : Entry)
    (hwf : wfE root = true) (hl : lookupE root p = some e)
    (hr : allReadable e = true) (hp : p ≠ []) :
    (∀ q : Path, lookupE (removeRecursive root p label).1 (p ++ q) = none) ∧
    (removeRecursive root p label).2 =
      (postorderPaths label e).map (fun d => "Removed: " ++ d) ∧
    ((removeRecursive root p label).2).getLast? = some ("Removed: " ++ label) ∧
    (∀ d ∈ descendantPaths label e,
      ("Removed: " ++ d) ∈ ((removeRecursive root p label).2).dropLast) := by
  have hfs : (removeRecursive root p label).1 = updAt root p none := by
    cases e with
    | file c m => simp [removeRecursive, hl]
    | dir rd ch =>
        simp [removeRecursive, hl, removeEntry_resid label _ hr (wf_lookup hwf hl)]
  have hlog : (removeRecursive root p label).2 =
      (postorderPaths label e).map (fun d => "Removed: " ++ d) := by
    cases e with
    | file c m => simp [removeRecursive, hl, postorderPaths]
    | dir rd ch =>
        simp [removeRecursive, hl, removeEntry_log, loggedPaths_eq_postorder _ _ hr]
  refine ⟨?_, hlog, ?_, ?_⟩
  · intro q
    rw [hfs, lookupE_append, lookup_updAt_erase hwf hl hp]
    rfl
  · rw [hlog, postorderPaths_eq_concat, List.map_append]
    simp
  · intro d hd
    rw [hlog, postorderPaths_eq_concat, List.map_append]
    simp only [List.map_cons, List.map_nil, List.dropLast_concat]
    exact List.mem_map_of_mem _ hd

/-- Witness for C3: deleting the directory `d` (which holds the file `d/a`)
from a concrete well-formed tree leaves nothing at or below `d`. -/
theorem claim3_removeRecursive_witness :
    wfE exRootD = true ∧ allReadable exDirA = true ∧
    (∀ q : Path, lookupE (removeRecursive exRootD ["d"] "d").1 (["d"] ++ q) = none) := by
  have h1 : wfE exRootD = true := by rfl
  have h2 : lookupE exRootD ["d"] = some exDirA := rfl
  have h3 : allReadable exDirA = true := rfl
  exact ⟨h1, h3, (claim3_removeRecursive exRootD ["d"] "d" exDirA h1 h2 h3 (by simp)).1⟩

end FileExplorer

/-! ### Distinctness of the paths visited by a recursive removal -/

namespace FileExplorer

theorem strData_path_append (path n : String) :
    (path ++ "/" ++ n).data = path.data ++ '/' :: n.data := by
  simp [String.data_append]

theorem ne_of_data_ext {q path : String} {t : List Char}
    (h : q.data = path.data ++ '/' :: t) : q ≠ path := by
  rintro rfl
  have := congrArg List.length h
  simp at this

mutual
theorem loggedPaths_shape (path : String) (e : Entry) :
    ∀ q ∈ loggedPaths path e, q = path ∨ ∃ t, q.data = path.data ++ '/' :: t := by
  cases e with
  | file c m =>
      intro q hq
      simp only [loggedPaths, List.mem_singleton] at hq
      exact Or.inl hq
  | dir rd ch =>
      cases rd with
      | false => intro q hq; simp [loggedPaths] at hq
      | true =>
          intro q hq
          simp only [loggedPaths, List.mem_append, List.mem_singleton] at hq
          rcases hq with hq | hq
          · exact Or.inr (loggedChildren_shape path ch q hq)
          · exact Or.inl hq

theorem loggedChildren_shape (path : String) (ch : List (String × Entry)) :
    ∀ q ∈ loggedChildren path ch, ∃ t, q.data = path.data ++ '/' :: t := by
  cases ch with
  | nil => intro q hq; simp [loggedChildren] at hq
  | cons hd tl =>
      obtain ⟨n, c⟩ := hd
      intro q hq
      simp only [loggedChildren, List.mem_append] at hq
      rcases hq with hq | hq
      · by_cases hs : n = "." ∨ n = ".."
        · simp [hs] at hq
        · simp only [if_neg hs] at hq
          rcases loggedPaths_shape (path ++ "/" ++ n) c q hq with rfl | ⟨t2, ht⟩
          · exact ⟨n.data, strData_path_append path n⟩
          · refine ⟨n.data ++ '/' :: t2, ?_⟩
            rw [ht, strData_path_append]
            simp
      · exact loggedChildren_shape path tl q hq
end

theorem loggedChildren_mem_decomp {path : String} {ch : List (String × Entry)} {q : String}
    (h : q ∈ loggedChildren path ch) :
    ∃ n c, (n, c) ∈ ch ∧ ¬ (n = "." ∨ n = "..") ∧ q ∈ loggedPaths (path ++ "/" ++ n) c := by
  induction ch with
  | nil => simp [loggedChildren] at h
  | cons hd tl ih =>
      obtain ⟨n, c⟩ := hd
      simp only [loggedChildren, List.mem_append] at h
      rcases h with h | h
      · by_cases hs : n = "." ∨ n = ".."
        · simp [hs] at h
        · simp only [if_neg hs] at h
          exact ⟨n, c, List.mem_cons_self _ _, hs, h⟩
      · obtain ⟨n2, c2, hm, hs2, hq2⟩ := ih h
        exact ⟨n2, c2, List.mem_cons_of_mem _ hm, hs2, hq2⟩

theorem loggedPaths_branch_shape {path n : String} {c : Entry} {q : String}
    (h : q ∈ loggedPaths (path ++ "/" ++ n) c) :
    ∃ tail, (tail = [] ∨ ∃ t2, tail = '/' :: t2) ∧
      q.data = path.data ++ '/' :: (n.data ++ tail) := by
  rcases loggedPaths_shape (path ++ "/" ++ n) c q h with rfl | ⟨t2, ht⟩
  · exact ⟨[], Or.inl rfl, by rw [strData_path_append]; simp⟩
  · refine ⟨'/' :: t2, Or.inr ⟨t2, rfl⟩, ?_⟩
    rw [ht, strData_path_append]
    simp

theorem names_branch_disjoint {a b t1 t2 : List Char}
    (hab : a ≠ b) (ha : '/' ∉ a) (hb : '/' ∉ b)
    (h1 : t1 = [] ∨ ∃ r, t1 = '/' :: r) (h2 : t2 = [] ∨ ∃ r, t2 = '/' :: r)
    (he : a ++ t1 = b ++ t2) : False := by
  induction a generalizing b with
  | nil =>
      cases b with
      | nil => exact hab rfl
      | cons bc bt =>
          simp only [List.nil_append, List.cons_append] at he
          rcases h1 with rfl | ⟨r, rfl⟩
          · exact List.cons_ne_nil _ _ he.symm
          · injection he with hh ht
            exact hb (by rw [← hh]; exact List.mem_cons_self _ _)
  | cons ac at' ih =>
      cases b with
      | nil =>
          simp only [List.cons_append, List.nil_append] at he
          rcases h2 with rfl | ⟨r, rfl⟩
          · exact List.cons_ne_nil _ _ he
          · injection he with hh ht
            exact ha (by rw [hh]; exact List.mem_cons_self _ _)
      | cons bc bt =>
          simp only [List.cons_append] at he
          injection he with hh ht
          subst hh
          exact ih (fun hx => hab (by rw [hx]))
            (fun hx => ha (List.mem_cons_of_mem _ hx))
            (fun hx => hb (List.mem_cons_of_mem _ hx)) ht

mutual
theorem loggedPaths_nodup (path : String) (e : Entry) (hw : wfE e = true) :
    (loggedPaths path e).Nodup := by
  cases e with
  | file c m => simp [loggedPaths]
  | dir rd ch =>
      cases rd with
      | false => simp [loggedPaths]
      | true =>
          have hparts := wfE_dir hw
          rw [loggedPaths, List.nodup_append]
          refine ⟨loggedChildren_nodup path ch hparts.2 hparts.1, List.nodup_singleton _, ?_⟩
          intro q hq hq2
          have hqp : q = path := List.mem_singleton.mp hq2
          obtain ⟨t, ht⟩ := loggedChildren_shape path ch q hq
          exact ne_of_data_ext ht hqp

theorem loggedChildren_nodup (path : String) (ch : List (String × Entry))
    (hw : wfL ch = true) (hnd : (ch.map Prod.fst).Nodup) :
    (loggedChildren path ch).Nodup := by
  cases ch with
  | nil => simp [loggedChildren]
  | cons hd tl =>
      obtain ⟨n, c⟩ := hd
      simp only [wfL, Bool.and_eq_true] at hw
      simp only [List.map_cons, List.nodup_cons] at hnd
      have hs : ¬ (n = "." ∨ n = "..") := nameOk_not_synthetic hw.1.1
      rw [loggedChildren, if_neg hs, List.nodup_append]
      refine ⟨loggedPaths_nodup _ c hw.1.2, loggedChildren_nodup path tl hw.2 hnd.2, ?_⟩
      intro q hq hq2
      obtain ⟨n2, c2, hm2, hs2, hq2'⟩ := loggedChildren_mem_decomp hq2
      have hn2 : n2 ∈ tl.map Prod.fst := List.mem_map_of_mem _ hm2
      have hne : n ≠ n2 := fun hx => hnd.1 (hx ▸ hn2)
      obtain ⟨tail1, hsh1, hd1⟩ := loggedPaths_branch_shape hq
      obtain ⟨tail2, hsh2, hd2⟩ := loggedPaths_branch_shape hq2'
      have hcat : n.data ++ tail1 = n2.data ++ tail2 := by
        have := hd1.symm.trans hd2
        have h2 := List.append_cancel_left this
        injection h2
      exact names_branch_disjoint (fun hx => hne (String.ext hx))
        (nameOk_no_sep hw.1.1)
        (nameOk_no_sep (wfL_mem hw.2 hm2).1) hsh1 hsh2 hcat
end

end FileExplorer

namespace FileExplorer

theorem strPrepend_injective (s : String) : Function.Injective (fun d => s ++ d) := by
  intro a b h
  apply String.ext
  have h2 := congrArg String.data h
  simp only [String.data_append] at h2
  exact List.append_cancel_left h2

/-- C7 counterexample: `rm u` where `u` is a directory that cannot be opened
for reading visits the path `u` but appends no log record at all, refuting
"exactly one Removed record for every visited path including directories
that cannot be opened for reading". -/
theorem claim7_counterexample :
    isDirectory exRootU ["u"] = true ∧
    (removeRecursive exRootU ["u"] "u").2 = [] := by
  exact ⟨rfl, rfl⟩

/-- C7 amended: recursive delete appends exactly one Removed record per
visited path — including paths whose `remove`/`rmdir` call fails and paths
that do not resolve at all — except that a directory whose `opendir` fails
(and consequently everything below it) produces no record: the log is
exactly the `loggedPaths` listing, and on a well-formed tree no path is
recorded twice. -/
theorem claim7_amended (root : Entry) (p : Path) (label : String) :
    ((removeRecursive root p label).2 =
      match lookupE root p with
      | some e => (loggedPaths label e).map (fun d => "Removed: " ++ d)
      | none => ["Removed: " ++ label]) ∧
    (∀ e, lookupE root p = some e → wfE e = true →
      ((removeRecursive root p label).2).Nodup) := by
  have hlog : (removeRecursive root p label).2 =
      match lookupE root p with
      | some e => (loggedPaths label e).map (fun d => "Removed: " ++ d)
      | none => ["Removed: " ++ label] := by
    cases hl : lookupE root p with
    | none => simp [removeRecursive, hl]
    | some e =>
        cases e with
        | file c m => simp [removeRecursive, hl, loggedPaths]
        | dir rd ch => simp [removeRecursive, hl, removeEntry_log]
  refine ⟨hlog, ?_⟩
  intro e hl hw
  rw [hlog, hl]
  exact (loggedPaths_nodup label e hw).map (strPrepend_injective "Removed: ")

/-- Witness for C7 amended, on a concrete readable tree. -/
theorem claim7_amended_witness :
    wfE exDirA = true ∧ ((removeRecursive exRootD ["d"] "d").2).Nodup :=
  ⟨rfl, (claim7_amended exRootD ["d"] "d").2 exDirA rfl rfl⟩

end FileExplorer

/-! ### Recursive search: printed paths and per-directory logging -/

namespace FileExplorer

mutual
theorem searchFile_printed (pat path : String) (e : Entry) :
    (searchFile pat path e).1 =
      ((reachableEntries path e).filter (fun x => strContains x.2 pat)).map Prod.fst := by
  cases e with
  | file c m => rfl
  | dir rd ch =>
      cases rd with
      | false => rfl
      | true =>
          simp only [searchFile, reachableEntries]
          exact searchChildren_printed pat path ch

theorem searchChildren_printed (pat path : String) (ch : List (String × Entry)) :
    (searchChildren pat path ch).1 =
      ((reachableChildren path ch).filter (fun x => strContains x.2 pat)).map Prod.fst := by
  cases ch with
  | nil => rfl
  | cons hd tl =>
      obtain ⟨n, c⟩ := hd
      by_cases hs : n = "." ∨ n = ".."
      · simp [searchChildren, reachableChildren, hs, searchChildren_printed pat path tl]
      · cases c with
        | file cc mm =>
            by_cases hm : strContains n pat = true <;>
              simp [searchChildren, reachableChildren, hs, hm, isDirE, reachableEntries,
                searchChildren_printed pat path tl, List.filter_cons]
        | dir rd2 ch2 =>
            by_cases hm : strContains n pat = true <;>
              simp [searchChildren, reachableChildren, hs, hm, isDirE,
                searchChildren_printed pat path tl,
                searchFile_printed pat (path ++ "/" ++ n) (Entry.dir rd2 ch2),
                List.filter_cons]
end

mutual
theorem reachableEntries_not_synthetic (path : String) (e : Entry) :
    ∀ x ∈ reachableEntries path e, ¬ (x.2 = "." ∨ x.2 = "..") := by
  cases e with
  | file c m => intro x hx; simp [reachableEntries] at hx
  | dir rd ch =>
      cases rd with
      | false => intro x hx; simp [reachableEntries] at hx
      | true =>
          intro x hx
          simp only [reachableEntries] at hx
          exact reachableChildren_not_synthetic path ch x hx

theorem reachableChildren_not_synthetic (path : String) (ch : List (String × Entry)) :
    ∀ x ∈ reachableChildren path ch, ¬ (x.2 = "." ∨ x.2 = "..") := by
  cases ch with
  | nil => intro x hx; simp [reachableChildren] at hx
  | cons hd tl =>
      obtain ⟨n, c⟩ := hd
      intro x hx
      by_cases hs : n = "." ∨ n = ".."
      · rw [reachableChildren, if_pos hs] at hx
        exact reachableChildren_not_synthetic path tl x hx
      · rw [reachableChildren, if_neg hs] at hx
        rcases List.mem_cons.mp hx with rfl | hx2
        · exact hs
        · rcases List.mem_append.mp hx2 with hx3 | hx3
          · exact reachableEntries_not_synthetic (path ++ "/" ++ n) c x hx3
          · exact reachableChildren_not_synthetic path tl x hx3
end

mutual
theorem searchFile_log (pat path : String) (e : Entry) :
    (searchFile pat path e).2 =
      (searchLogPaths path e).map (fun d => "Searched for: " ++ pat ++ " in " ++ d) := by
  cases e with
  | file c m => rfl
  | dir rd ch =>
      cases rd with
      | false => rfl
      | true =>
          simp only [searchFile, searchLogPaths, List.map_append, List.map_cons,
            List.map_nil]
          rw [searchChildren_log pat path ch]

theorem searchChildren_log (pat path : String) (ch : List (String × Entry)) :
    (searchChildren pat path ch).2 =
      (searchLogChildren path ch).map (fun d => "Searched for: " ++ pat ++ " in " ++ d) := by
  cases ch with
  | nil => rfl
  | cons hd tl =>
      obtain ⟨n, c⟩ := hd
      by_cases hs : n = "." ∨ n = ".."
      · simp [searchChildren, searchLogChildren, hs, searchChildren_log pat path tl]
      · cases c with
        | file cc mm =>
            simp [searchChildren, searchLogChildren, hs, isDirE, searchLogPaths,
              searchChildren_log pat path tl]
        | dir rd2 ch2 =>
            simp [searchChildren, searchLogChildren, hs, isDirE,
              searchChildren_log pat path tl,
              searchFile_log pat (path ++ "/" ++ n) (Entry.dir rd2 ch2)]
end

mutual
theorem searchLogPaths_length (path : String) (e : Entry) :
    (searchLogPaths path e).length = countReadableDirs e := by
  cases e with
  | file c m => rfl
  | dir rd ch =>
      cases rd with
      | false => rfl
      | true =>
          simp only [searchLogPaths, countReadableDirs, List.length_append,
            List.length_cons, List.length_nil]
          rw [searchLogChildren_length path ch]
          omega

theorem searchLogChildren_length (path : String) (ch : List (String × Entry)) :
    (searchLogChildren path ch).length = countReadableDirsL ch := by
  cases ch with
  | nil => rfl
  | cons hd tl =>
      obtain ⟨n, c⟩ := hd
      by_cases hs : n = "." ∨ n = ".."
      · simp [searchLogChildren, countReadableDirsL, hs, searchLogChildren_length path tl]
      · simp [searchLogChildren, countReadableDirsL, hs, searchLogChildren_length path tl,
          searchLogPaths_length (path ++ "/" ++ n) c]
end

/-- C4: recursive search prints exactly the full paths of the entries whose
name contains the pattern as a substring, over the entries nested at any
depth of readable directories (in traversal order), and the enumeration it
draws from never contains the synthetic `.`/`..` entries. -/
theorem claim4_search_prints_matches (pat path : String) (e : Entry) :
    (searchFile pat path e).1 =
      ((reachableEntries path e).filter (fun x => strContains x.2 pat)).map Prod.fst ∧
    ∀ x ∈ reachableEntries path e, ¬ (x.2 = "." ∨ x.2 = "..") :=
  ⟨searchFile_printed pat path e, reachableEntries_not_synthetic path e⟩

/-- C10: one `Searched for` log record is appended per readable directory
entered (the root plus every readable subdirectory reached through readable
directories, children recorded before their parent), none for a directory
that cannot be opened, so the log grows by exactly the number of readable
directories entered. -/
theorem claim10_search_log_per_directory (pat path : String) (e : Entry) :
    (searchFile pat path e).2 =
      (searchLogPaths path e).map (fun d => "Searched for: " ++ pat ++ " in " ++ d) ∧
    (searchLogPaths path e).length = countReadableDirs e ∧
    ((searchFile pat path e).2).length = countReadableDirs e := by
  refine ⟨searchFile_log pat path e, searchLogPaths_length path e, ?_⟩
  rw [searchFile_log pat path e, List.length_map]
  exact searchLogPaths_length path e

end FileExplorer

/-! ### Copying: failure conditions, logging, and content preservation -/

namespace FileExplorer

theorem contentAt_some {root : Entry} {p : Path} {c : List Nat}
    (h : contentAt root p = some c) : ∃ m, lookupE root p = some (Entry.file c m) := by
  unfold contentAt at h
  cases hl : lookupE root p with
  | none => rw [hl] at h; cases h
  | some e =>
      cases e with
      | file cc mm =>
          rw [hl] at h
          injection h with h2
          exact ⟨mm, by rw [h2]⟩
      | dir rd ch => rw [hl] at h; cases h

theorem canOpenWrite_parts {root : Entry} {p : Path} (h : canOpenWrite root p = true) :
    p ≠ [] ∧ (∃ rd ch, lookupE root p.dropLast = some (Entry.dir rd ch)) ∧
      (∀ rd ch, lookupE root p ≠ some (Entry.dir rd ch)) := by
  simp only [canOpenWrite, Bool.and_eq_true] at h
  refine ⟨?_, ?_, ?_⟩
  · intro hp
    rw [hp] at h
    simp at h
  · cases hl : lookupE root p.dropLast with
    | none => rw [hl] at h; simp at h
    | some e =>
        cases e with
        | file cc mm => rw [hl] at h; simp at h
        | dir rd ch => exact ⟨rd, ch, rfl⟩

  · intro rd ch hl
    rw [hl] at h
    simp at h

theorem updAt_dir_is_dir (rd : Bool) (ch : List (String × Entry)) (n : String)
    (p2 : Path) (r : Option Entry) :
    ∃ ch2, updAt (Entry.dir rd ch) (n :: p2) r = Entry.dir rd ch2 := by
  cases hf : findChild n ch with
  | some c =>
      cases p2 with
      | nil => exact ⟨setChild n r ch, by simp [updAt, hf]⟩
      | cons a b =>
          exact ⟨setChild n (some (updAt c (a :: b) r)) ch, by simp [updAt, hf]⟩
  | none =>
      cases p2 with
      | nil =>
          cases r with
          | some x => exact ⟨ch ++ [(n, x)], by simp [updAt, hf]⟩
          | none => exact ⟨ch, by simp [updAt, hf]⟩
      | cons a b =>
          cases r with
          | some x => exact ⟨ch, by simp [updAt, hf]⟩
          | none => exact ⟨ch, by simp [updAt, hf]⟩

theorem lookup_updAt_dir_preserved {root : Entry} {q p : Path} {rd : Bool}
    {ch : List (String × Entry)} (r : Option Entry)
    (hqp : q <+: p) (hne : q ≠ p)
    (h : lookupE root q = some (Entry.dir rd ch)) :
    ∃ ch2, lookupE (updAt root p r) q = some (Entry.dir rd ch2) := by
  induction q generalizing root p ch with
  | nil =>
      have hroot : root = Entry.dir rd ch := by simpa [lookupE] using h
      subst hroot
      cases p with
      | nil => exact absurd rfl hne
      | cons n p2 =>
          obtain ⟨ch2, hch2⟩ := updAt_dir_is_dir rd ch n p2 r
          exact ⟨ch2, by rw [hch2]; rfl⟩
  | cons m q2 ih =>
      obtain ⟨k, rfl⟩ := hqp
      have hk : k ≠ [] := by rintro rfl; exact hne (by simp)
      have hne2 : q2 ≠ q2 ++ k := by
        intro hx
        have hlen := congrArg List.length hx
        simp only [List.length_append] at hlen
        exact hk (List.eq_nil_of_length_eq_zero (by omega))
      cases root with
      | file cc mm => simp [lookupE] at h
      | dir rd0 ch0 =>
          simp only [lookupE] at h
          cases hf : findChild m ch0 with
          | none => rw [hf] at h; cases h
          | some c =>
              rw [hf] at h
              have hcons : (m :: q2) ++ k = m :: (q2 ++ k) := rfl
              rw [hcons]
              obtain ⟨ch2, hres⟩ := ih ⟨k, rfl⟩ hne2 h
              refine ⟨ch2, ?_⟩
              cases hq2k : q2 ++ k with
              | nil => exact absurd (List.append_eq_nil.mp hq2k).2 hk
              | cons a b =>
                  rw [hq2k] at hres
                  simp only [updAt, lookupE, hf, findChild_setChild_found _ hf]
                  exact hres

end FileExplorer

namespace FileExplorer

/-- C6: `copyFile` returns failure exactly when the source cannot be opened
for reading (it does not name a file) or the destination cannot be opened
for writing; it appends a log record exactly when it succeeds (the log
contribution is empty on every failure path), and the `cp` dispatcher
branch adds nothing to the log beyond what `copyFile` itself appended. -/
theorem claim6_copyFile_failure_no_log (root : Entry) (src dest : Path)
    (sl dl : String) (now : Nat) (s : Sys) (a b : String) :
    ((copyFile root src dest sl dl now).2.1 = false ↔
      contentAt root src = none ∨ canOpenWrite root dest = false) ∧
    ((copyFile root src dest sl dl now).2.2 = [] ↔
      (copyFile root src dest sl dl now).2.1 = false) ∧
    (cpCmd s now a b).1.log =
      s.log ++ (copyFile s.root (resolve s a) (resolve s b) a b now).2.2.map
        (fun m => (now, m)) := by
  refine ⟨?_, ?_, ?_⟩
  · cases hc : contentAt root src with
    | none => simp [copyFile, hc]
    | some c0 =>
        cases hw : canOpenWrite root dest with
        | false => simp [copyFile, hc, openWrite, hw]
        | true => simp [copyFile, hc, openWrite, hw]
  · cases hc : contentAt root src with
    | none => simp [copyFile, hc]
    | some c0 =>
        cases hw : canOpenWrite root dest with
        | false => simp [copyFile, hc, openWrite, hw]
        | true => simp [copyFile, hc, openWrite, hw]
  · simp [cpCmd]

/-- C5 counterexample: copying the file `a` (contents `[1]`) onto itself
succeeds, yet afterwards the destination holds the empty byte string, not
the original contents, because `fopen(dest,"wb")` truncated the file before
any byte was read — so "dest is byte-identical to the original content of
src and src is unchanged" fails when `src = dest`. -/
theorem claim5_counterexample :
    contentAt exRootCopy ["a"] = some [1] ∧
    (copyFile exRootCopy ["a"] ["a"] "a" "a" 9).2.1 = true ∧
    contentAt (copyFile exRootCopy ["a"] ["a"] "a" "a" 9).1 ["a"] = some [] ∧
    contentAt (copyFile exRootCopy ["a"] ["a"] "a" "a" 9).1 ["a"] ≠
      contentAt exRootCopy ["a"] := by
  refine ⟨rfl, rfl, rfl, ?_⟩
  intro h
  rw [show contentAt (copyFile exRootCopy ["a"] ["a"] "a" "a" 9).1 ["a"] =
    some ([] : List Nat) from rfl] at h
  rw [show contentAt exRootCopy ["a"] = some [1] from rfl] at h
  injection h with h2
  cases h2

/-- C5 amended: whenever `copyFile(src, dest)` succeeds and `src` and `dest`
are distinct paths, the destination's content afterwards is byte-identical
to the source's original content and the source entry (content and
modification time) is unchanged.  (The unamended claim fails when
`src = dest`, where the `"wb"` truncation destroys the source first.) -/
theorem claim5_copy_byte_identical (root : Entry) (src dest : Path)
    (sl dl : String) (now : Nat)
    (hok : (copyFile root src dest sl dl now).2.1 = true) (hne : src ≠ dest) :
    contentAt (copyFile root src dest sl dl now).1 dest = contentAt root src ∧
    lookupE (copyFile root src dest sl dl now).1 src = lookupE root src := by
  cases hc : contentAt root src with
  | none => simp [copyFile, hc] at hok
  | some c0 =>
  cases hw : canOpenWrite root dest with
  | false => simp [copyFile, hc, openWrite, hw] at hok
  | true =>
  obtain ⟨m0, hsrc⟩ := contentAt_some hc
  obtain ⟨hdne, ⟨rdp, chp, hpar⟩, hnotdir⟩ := canOpenWrite_parts hw
  -- src and dest are prefix-incomparable
  have hnp1 : ¬ src <+: dest := by
    rintro ⟨k, rfl⟩
    have hk : k ≠ [] := by rintro rfl; simp at hne
    rw [List.dropLast_append_of_ne_nil _ hk, lookupE_append, hsrc] at hpar
    cases hkd : k.dropLast with
    | nil => rw [hkd] at hpar; simp [lookupE] at hpar
    | cons x y => rw [hkd] at hpar; simp [lookupE] at hpar
  have hnp2 : ¬ dest <+: src := by
    rintro ⟨k, rfl⟩
    have hk : k ≠ [] := by rintro rfl; simp at hne
    rw [lookupE_append] at hsrc
    cases hl : lookupE root dest with
    | none => rw [hl] at hsrc; cases hsrc
    | some e =>
        rw [hl] at hsrc
        cases e with
        | dir rd2 ch2 => exact hnotdir rd2 ch2 hl
        | file cc mm =>
            cases k with
            | nil => exact hk rfl
            | cons x y => simp [lookupE] at hsrc
  -- unfold the successful run of copyFile
  have hcf : copyFile root src dest sl dl now =
      (updAt (updAt root dest (some (Entry.file [] now))) dest
        (some (Entry.file
          (copyLoop ((contentAt (updAt root dest (some (Entry.file [] now))) src).getD []))
          now)), true, ["Copied file: " ++ sl ++ " -> " ++ dl]) := by
    simp [copyFile, hc, openWrite, hw]
  have hother1 : lookupE (updAt root dest (some (Entry.file [] now))) src =
      lookupE root src := lookup_updAt_other _ hnp2 hnp1
  have hcont1 : contentAt (updAt root dest (some (Entry.file [] now))) src = some c0 := by
    unfold contentAt
    rw [hother1, hsrc]
  -- the directory above dest survives the truncating open
  have hdl_pre : dest.dropLast <+: dest := List.dropLast_prefix dest
  have hdl_ne : dest.dropLast ≠ dest := by
    intro hx
    have := congrArg List.length hx
    rw [List.length_dropLast] at this
    have hp : 0 < dest.length := List.length_pos.mpr hdne
    omega
  obtain ⟨chp2, hpar2⟩ :=
    lookup_updAt_dir_preserved (some (Entry.file [] now)) hdl_pre hdl_ne hpar
  have hdest2 : lookupE (copyFile root src dest sl dl now).1 dest =
      some (Entry.file c0 now) := by
    rw [hcf]
    simp only [hcont1, Option.getD_some, copyLoop_eq]
    exact lookup_updAt_insert _ hpar2 hdne
  constructor
  · have hcd : contentAt (copyFile root src dest sl dl now).1 dest = some c0 := by
      unfold contentAt
      rw [hdest2]
    rw [hcd]
  · rw [hcf]
    have h2 : lookupE (updAt (updAt root dest (some (Entry.file [] now))) dest
        (some (Entry.file
          (copyLoop ((contentAt (updAt root dest (some (Entry.file [] now))) src).getD []))
          now))) src =
        lookupE (updAt root dest (some (Entry.file [] now))) src :=
      lookup_updAt_other _ hnp2 hnp1
    rw [h2, hother1]

/-- Witness for C5 amended: copying `a` to the fresh path `b`. -/
theorem claim5_copy_byte_identical_witness :
    (copyFile exRootCopy ["a"] ["b"] "a" "b" 9).2.1 = true ∧
    contentAt (copyFile exRootCopy ["a"] ["b"] "a" "b" 9).1 ["b"] =
      contentAt exRootCopy ["a"] ∧
    lookupE (copyFile exRootCopy ["a"] ["b"] "a" "b" 9).1 ["a"] =
      lookupE exRootCopy ["a"] := by
  have h := claim5_copy_byte_identical exRootCopy ["a"] ["b"] "a" "b" 9 rfl (by simp)
  exact ⟨rfl, h.1, h.2⟩

end FileExplorer

/-! ### Per-operation log behaviour -/

namespace FileExplorer

theorem changeDir_log (s : Sys) (now : Nat) (raw : String) :
    ((changeDir s now raw).1).log = s.log ++
      (if isDirectory s.root (resolve s raw) then
        [(now, "Changed directory to: " ++ raw)] else []) := by
  by_cases h : isDirectory s.root (resolve s raw) = true
  · simp [changeDir, h, logAction]
  · simp [changeDir, h, logAction]

theorem moveFile_log (s : Sys) (now : Nat) (a b : String) :
    ((moveFile s now a b).1).log = s.log ++
      (if mvOk s.root (resolve s a) (resolve s b) then
        [(now, "Moved/Renamed: " ++ a ++ " -> " ++ b)] else []) := by
  unfold moveFile mvOk
  cases hl : lookupE s.root (resolve s a) with
  | none => simp [hl, logAction]
  | some e =>
      by_cases hc : canMoveTo s.root (resolve s b) = true
      · simp [hl, hc, logAction]
      · simp [hl, hc, logAction]

theorem touchFile_log (s : Sys) (now : Nat) (raw : String) :
    ((touchFile s now raw).1).log = s.log ++
      (if touchOk s.root (resolve s raw) then
        [(now, "Created or updated file: " ++ raw)] else []) := by
  unfold touchFile touchOk
  cases hl : lookupE s.root (resolve s raw) with
  | none =>
      by_cases hc : canOpenWrite s.root (resolve s raw) = true
      · simp [hl, hc, logAction]
      · simp [hl, hc, logAction]
  | some e =>
      cases e with
      | file c m => simp [hl, logAction]
      | dir rd ch => simp [hl, logAction]

theorem makeDir_log (s : Sys) (now : Nat) (raw : String) :
    ((makeDir s now raw).1).log = s.log ++ [(now, "Created directory: " ++ raw)] := by
  unfold makeDir
  by_cases h : mkdirOk s.root (resolve s raw) = true
  · simp [h, logAction]
  · simp [h, logAction]

theorem printPwd_log (s : Sys) (now : Nat) :
    ((printPwd s now).1).log = s.log ++ [(now, "Checked current directory.")] := rfl

theorem listFiles_log (s : Sys) (now : Nat) (raw : String) :
    ((listFiles s now raw).1).log = s.log ++
      (if lsOk s.root (resolve s raw) then
        [(now, "Listed contents of: " ++ raw)] else []) := by
  unfold listFiles lsOk
  cases hl : lookupE s.root (resolve s raw) with
  | none => simp [hl, logAction]
  | some e =>
      cases e with
      | file c m => simp [hl, logAction]
      | dir rd ch =>
          cases rd with
          | true => simp [hl, logAction]
          | false => simp [hl, logAction]

theorem cpCmd_log (s : Sys) (now : Nat) (a b : String) :
    ((cpCmd s now a b).1).log = s.log ++
      ((copyFile s.root (resolve s a) (resolve s b) a b now).2.2).map
        (fun m => (now, m)) := by
  simp [cpCmd]

theorem rmCmd_log (s : Sys) (now : Nat) (raw : String) :
    ((rmCmd s now raw).1).log = s.log ++
      ((removeRecursive s.root (resolve s raw) raw).2).map (fun m => (now, m)) := by
  simp [rmCmd]

theorem searchCmd_log (s : Sys) (now : Nat) (pat : String) :
    ((searchCmd s now pat).1).log = s.log ++
      ((searchFile pat "." ((lookupE s.root s.cwd).getD (Entry.dir false []))).2).map
        (fun m => (now, m)) := by
  simp [searchCmd]

end FileExplorer

namespace FileExplorer

/-- C1 counterexample: a `cd` whose `chdir` fails (the path does not resolve
to a directory), an `mv` whose `rename` fails (missing source), and a
`touch` whose `fopen` fails (missing parent directory) all leave the
activity log empty — no record of the attempted action is appended, contrary
to the claim that change-directory, move and touch log even when the
underlying syscall fails. -/
theorem claim1_counterexample :
    (isDirectory exSysEmpty.root (resolve exSysEmpty "nope") = false ∧
      ((changeDir exSysEmpty 7 "nope").1).log = [] ∧
      (changeDir exSysEmpty 7 "nope").2 = [perrorLine "cd"]) ∧
    (mvOk exSysEmpty.root (resolve exSysEmpty "a") (resolve exSysEmpty "b") = false ∧
      ((moveFile exSysEmpty 7 "a" "b").1).log = []) ∧
    (touchOk exSysEmpty.root (resolve exSysEmpty "d/x") = false ∧
      ((touchFile exSysEmpty 7 "d/x").1).log = []) :=
  ⟨⟨rfl, rfl, rfl⟩, ⟨rfl, rfl⟩, ⟨rfl, rfl⟩⟩

/-- C1 amended: after each operation's syscall-level action, `changeDir`,
`moveFile`, `touchFile` and `listFiles` append one log record exactly when
the underlying call succeeds (and nothing on failure); `makeDir` and
`printPwd` append one record unconditionally; `copyFile` logs only on
success and `removeRecursive` logs per visited path, as the claim's two
stated exceptions already say. -/
theorem claim1_log_on_success_only (s : Sys) (now : Nat) (raw a b : String) :
    (((changeDir s now raw).1).log = s.log ++
      (if isDirectory s.root (resolve s raw) then
        [(now, "Changed directory to: " ++ raw)] else [])) ∧
    (((moveFile s now a b).1).log = s.log ++
      (if mvOk s.root (resolve s a) (resolve s b) then
        [(now, "Moved/Renamed: " ++ a ++ " -> " ++ b)] else [])) ∧
    (((touchFile s now raw).1).log = s.log ++
      (if touchOk s.root (resolve s raw) then
        [(now, "Created or updated file: " ++ raw)] else [])) ∧
    (((makeDir s now raw).1).log = s.log ++ [(now, "Created directory: " ++ raw)]) ∧
    (((printPwd s now).1).log = s.log ++ [(now, "Checked current directory.")]) ∧
    (((listFiles s now raw).1).log = s.log ++
      (if lsOk s.root (resolve s raw) then
        [(now, "Listed contents of: " ++ raw)] else [])) :=
  ⟨changeDir_log s now raw, moveFile_log s now a b, touchFile_log s now raw,
    makeDir_log s now raw, printPwd_log s now, listFiles_log s now raw⟩

/-- C2 counterexample: in a state holding `d/xfile`, the line
`search x d` prints `./d/xfile` — the traversal was rooted at `.` (the
current directory) — whereas a search rooted at the second argument `d`
would print `d/xfile`; the per-directory log records likewise name `./d`
and `.`, not `d`.  The dispatcher therefore does not pass the second
positional argument as the traversal root. -/
theorem claim2_counterexample :
    (dispatchArgs exSysSearch 0 ["search", "x", "d"]).2 = ["./d/xfile"] ∧
    (searchFile "x" "d" ((lookupE exSysSearch.root ["d"]).getD (Entry.dir false []))).1 =
      ["d/xfile"] ∧
    (dispatchArgs exSysSearch 0 ["search", "x", "d"]).2 ≠
      (searchFile "x" "d" ((lookupE exSysSearch.root ["d"]).getD (Entry.dir false []))).1 ∧
    ((dispatchArgs exSysSearch 0 ["search", "x", "d"]).1).log.map Prod.snd =
      ["Searched for: x in ./d", "Searched for: x in ."] := by
  refine ⟨rfl, rfl, ?_, rfl⟩
  intro h
  rw [show (dispatchArgs exSysSearch 0 ["search", "x", "d"]).2 = ["./d/xfile"] from rfl,
    show (searchFile "x" "d"
      ((lookupE exSysSearch.root ["d"]).getD (Entry.dir false []))).1 = ["d/xfile"]
      from rfl] at h
  injection h with h1 h2
  have := congrArg String.data h1
  simp at this

/-- C2 amended: a `search` line always runs the recursive search rooted at
`"."` — the current working directory — and any second positional argument
is ignored: dispatching `search pat extra...` is identical to dispatching
`search pat`. -/
theorem claim2_search_root_ignored (s : Sys) (now : Nat) (pat : String)
    (rest : List String) :
    dispatchArgs s now ("search" :: pat :: rest) = dispatchArgs s now ["search", pat] ∧
    dispatchArgs s now ["search", pat] = searchCmd s now pat ∧
    (searchCmd s now pat).2 =
      (searchFile pat "." ((lookupE s.root s.cwd).getD (Entry.dir false []))).1 :=
  ⟨rfl, rfl, rfl⟩

/-- C9 counterexample: touching the existing file `f` (modification time 5)
at current time 7 succeeds and prints/logs, but the file's modification
time afterwards is still 5, not 7: `fopen(path,"ab")` followed immediately
by `fclose` writes nothing, so the OS does not update the modification
time.  The claim's "its modification time is updated" fails. -/
theorem claim9_counterexample :
    touchOk exSysTouch.root (resolve exSysTouch "f") = true ∧
    (touchFile exSysTouch 7 "f").2 = ["File created/updated: f"] ∧
    mtimeAt ((touchFile exSysTouch 7 "f").1).root ["f"] = some 5 ∧
    mtimeAt ((touchFile exSysTouch 7 "f").1).root ["f"] ≠ some 7 := by
  refine ⟨rfl, rfl, rfl, ?_⟩
  intro h
  rw [show mtimeAt ((touchFile exSysTouch 7 "f").1).root ["f"] = some 5 from rfl] at h
  injection h with h2
  cases h2

/-- C9 amended: touch opens the path for append and immediately closes it.
For an existing file the filesystem is left entirely unchanged — content
and modification time alike, since no byte is written; an absent path whose
parent directory exists is created as an empty file stamped with the
current time.  In both cases the operation succeeds, prints the
created/updated line, and logs. -/
theorem claim9_touch_append_close (s : Sys) (now : Nat) (raw : String) :
    (∀ c m, lookupE s.root (resolve s raw) = some (Entry.file c m) →
      ((touchFile s now raw).1).root = s.root ∧
      (touchFile s now raw).2 = ["File created/updated: " ++ raw] ∧
      ((touchFile s now raw).1).log =
        s.log ++ [(now, "Created or updated file: " ++ raw)]) ∧
    (lookupE s.root (resolve s raw) = none →
      canOpenWrite s.root (resolve s raw) = true →
      lookupE ((touchFile s now raw).1).root (resolve s raw) =
        some (Entry.file [] now) ∧
      (touchFile s now raw).2 = ["File created/updated: " ++ raw]) := by
  constructor
  · intro c m hl
    refine ⟨?_, ?_, ?_⟩ <;> simp [touchFile, hl, logAction]
  · intro hl hcw
    obtain ⟨hpne, ⟨rdp, chp, hpar⟩, _⟩ := canOpenWrite_parts hcw
    constructor
    · simp only [touchFile, hl, hcw, if_true]
      exact lookup_updAt_insert _ hpar hpne
    · simp [touchFile, hl, hcw]

/-- Witness for C9 amended: touching the existing `f` leaves the filesystem
untouched; touching the absent `nf` creates an empty file stamped 7. -/
theorem claim9_touch_append_close_witness :
    lookupE exSysTouch.root (resolve exSysTouch "f") = some (Entry.file [9] 5) ∧
    ((touchFile exSysTouch 7 "f").1).root = exSysTouch.root ∧
    lookupE ((touchFile exSysTouch 7 "nf").1).root (resolve exSysTouch "nf") =
      some (Entry.file [] 7) := by
  refine ⟨rfl, ?_, ?_⟩
  · exact ((claim9_touch_append_close exSysTouch 7 "f").1 [9] 5 rfl).1
  · exact ((claim9_touch_append_close exSysTouch 7 "nf").2 rfl rfl).1

end FileExplorer

/-! ### The dispatcher only appends to the log -/

namespace FileExplorer

theorem copyFile_log_nonempty {root : Entry} {src dest : Path} {sl dl : String} {now : Nat}
    (h : (copyFile root src dest sl dl now).2.1 = true) :
    (copyFile root src dest sl dl now).2.2 ≠ [] := by
  cases hc : contentAt root src with
  | none => simp [copyFile, hc] at h
  | some c0 =>
      cases hw : canOpenWrite root dest with
      | false => simp [copyFile, hc, openWrite, hw] at h
      | true => simp [copyFile, hc, openWrite, hw]

theorem rm_success_log_nonempty {s : Sys} {raw : String} (h : rmOk s raw = true) :
    (removeRecursive s.root (resolve s raw) raw).2 ≠ [] := by
  unfold rmOk at h
  cases hl : lookupE s.root (resolve s raw) with
  | none => rw [hl] at h; simp at h
  | some e =>
      cases e with
      | file c m => simp [removeRecursive, hl]
      | dir rd ch =>
          cases rd with
          | true => simp [removeRecursive, hl, removeEntry]
          | false =>
              rw [hl] at h
              simp only [Bool.and_eq_true, Option.isSome_some] at h
              have h2 := h.2
              rw [show (removeRecursive s.root (resolve s raw) raw).1 =
                  updAt s.root (resolve s raw) (some (Entry.dir false ch)) from by
                    simp [removeRecursive, hl, removeEntry]] at h2
              rw [lookup_updAt_set (Entry.dir false ch) hl] at h2
              simp at h2

theorem search_success_log_nonempty {s : Sys} (pat : String)
    (h : lsOk s.root s.cwd = true) :
    (searchFile pat "." ((lookupE s.root s.cwd).getD (Entry.dir false []))).2 ≠ [] := by
  unfold lsOk at h
  cases hl : lookupE s.root s.cwd with
  | none => rw [hl] at h; simp at h
  | some e =>
      cases e with
      | file c m => rw [hl] at h; simp at h
      | dir rd ch =>
          cases rd with
          | false => rw [hl] at h; simp at h
          | true => simp [hl, searchFile]

theorem dispatch_log_shape (s : Sys) (now : Nat) (args : List String) :
    ∃ msgs : List String,
      ((dispatchArgs s now args).1).log = s.log ++ msgs.map (fun m => (now, m)) ∧
      (cmdSuccess s now args = true → msgs ≠ []) := by
  match args with
  | [] => exact ⟨[], by simp [dispatchArgs], by simp [cmdSuccess]⟩
  | cmd :: rest =>
    by_cases h1 : cmd = "help"
    · subst h1
      exact ⟨[], by simp [dispatchArgs], fun hs => by simp [cmdSuccess] at hs⟩
    by_cases h2 : cmd = "ls"
    · subst h2
      refine ⟨if lsOk s.root (resolve s (rest.headD ".")) then
          ["Listed contents of: " ++ rest.headD "."] else [], ?_, ?_⟩
      · rw [show (dispatchArgs s now ("ls" :: rest)).1 =
            (listFiles s now (rest.headD ".")).1 from rfl, listFiles_log]
        by_cases hc : lsOk s.root (resolve s (rest.headD ".")) = true
        · rw [if_pos hc, if_pos hc]
          rfl
        · rw [if_neg hc, if_neg hc]
          rfl
      · intro hs
        rw [show cmdSuccess s now ("ls" :: rest) =
            lsOk s.root (resolve s (rest.headD ".")) from rfl] at hs
        rw [if_pos hs]
        simp
    by_cases h3 : cmd = "cd"
    · subst h3
      cases rest with
      | nil => exact ⟨[], by simp [dispatchArgs], fun hs => by simp [cmdSuccess] at hs⟩
      | cons p rest2 =>
          refine ⟨if isDirectory s.root (resolve s p) then
              ["Changed directory to: " ++ p] else [], ?_, ?_⟩
          · rw [show (dispatchArgs s now ("cd" :: p :: rest2)).1 =
                (changeDir s now p).1 from rfl, changeDir_log]
            by_cases hc : isDirectory s.root (resolve s p) = true <;> simp [hc]
          · intro hs
            rw [show cmdSuccess s now ("cd" :: p :: rest2) =
                isDirectory s.root (resolve s p) from rfl] at hs
            simp [hs]
    by_cases h4 : cmd = "pwd"
    · subst h4
      exact ⟨["Checked current directory."], by
        rw [show (dispatchArgs s now ("pwd" :: rest)).1 = (printPwd s now).1 from rfl,
          printPwd_log]; simp, fun _ => by simp⟩
    by_cases h5 : cmd = "cp"
    · subst h5
      match rest with
      | [] => exact ⟨[], by simp [dispatchArgs], fun hs => by simp [cmdSuccess] at hs⟩
      | [a] => exact ⟨[], by simp [dispatchArgs], fun hs => by simp [cmdSuccess] at hs⟩
      | a :: b :: rest2 =>
          refine ⟨(copyFile s.root (resolve s a) (resolve s b) a b now).2.2, ?_, ?_⟩
          · rw [show (dispatchArgs s now ("cp" :: a :: b :: rest2)).1 =
                (cpCmd s now a b).1 from rfl, cpCmd_log]
          · intro hs
            rw [show cmdSuccess s now ("cp" :: a :: b :: rest2) =
                (copyFile s.root (resolve s a) (resolve s b) a b now).2.1 from rfl] at hs
            exact copyFile_log_nonempty hs
    by_cases h6 : cmd = "mv"
    · subst h6
      match rest with
      | [] => exact ⟨[], by simp [dispatchArgs], fun hs => by simp [cmdSuccess] at hs⟩
      | [a] => exact ⟨[], by simp [dispatchArgs], fun hs => by simp [cmdSuccess] at hs⟩
      | a :: b :: rest2 =>
          refine ⟨if mvOk s.root (resolve s a) (resolve s b) then
              ["Moved/Renamed: " ++ a ++ " -> " ++ b] else [], ?_, ?_⟩
          · rw [show (dispatchArgs s now ("mv" :: a :: b :: rest2)).1 =
                (moveFile s now a b).1 from rfl, moveFile_log]
            by_cases hc : mvOk s.root (resolve s a) (resolve s b) = true <;> simp [hc]
          · intro hs
            rw [show cmdSuccess s now ("mv" :: a :: b :: rest2) =
                mvOk s.root (resolve s a) (resolve s b) from rfl] at hs
            simp [hs]
    by_cases h7 : cmd = "rm"
    · subst h7
      cases rest with
      | nil => exact ⟨[], by simp [dispatchArgs], fun hs => by simp [cmdSuccess] at hs⟩
      | cons p rest2 =>
          refine ⟨(removeRecursive s.root (resolve s p) p).2, ?_, ?_⟩
          · rw [show (dispatchArgs s now ("rm" :: p :: rest2)).1 =
                (rmCmd s now p).1 from rfl, rmCmd_log]
          · intro hs
            rw [show cmdSuccess s now ("rm" :: p :: rest2) = rmOk s p from rfl] at hs
            exact rm_success_log_nonempty hs
    by_cases h8 : cmd = "touch"
    · subst h8
      cases rest with
      | nil => exact ⟨[], by simp [dispatchArgs], fun hs => by simp [cmdSuccess] at hs⟩
      | cons p rest2 =>
          refine ⟨if touchOk s.root (resolve s p) then
              ["Created or updated file: " ++ p] else [], ?_, ?_⟩
          · rw [show (dispatchArgs s now ("touch" :: p :: rest2)).1 =
                (touchFile s now p).1 from rfl, touchFile_log]
            by_cases hc : touchOk s.root (resolve s p) = true <;> simp [hc]
          · intro hs
            rw [show cmdSuccess s now ("touch" :: p :: rest2) =
                touchOk s.root (resolve s p) from rfl] at hs
            simp [hs]
    by_cases h9 : cmd = "mkdir"
    · subst h9
      cases rest with
      | nil => exact ⟨[], by simp [dispatchArgs], fun hs => by simp [cmdSuccess] at hs⟩
      | cons p rest2 =>
          exact ⟨["Created directory: " ++ p], by
            rw [show (dispatchArgs s now ("mkdir" :: p :: rest2)).1 =
              (makeDir s now p).1 from rfl, makeDir_log]; simp, fun _ => by simp⟩
    by_cases h10 : cmd = "search"
    · subst h10
      cases rest with
      | nil => exact ⟨[], by simp [dispatchArgs], fun hs => by simp [cmdSuccess] at hs⟩
      | cons p rest2 =>
          refine ⟨(searchFile p "."
              ((lookupE s.root s.cwd).getD (Entry.dir false []))).2, ?_, ?_⟩
          · rw [show (dispatchArgs s now ("search" :: p :: rest2)).1 =
                (searchCmd s now p).1 from rfl, searchCmd_log]
          · intro hs
            rw [show cmdSuccess s now ("search" :: p :: rest2) =
                lsOk s.root s.cwd from rfl] at hs
            exact search_success_log_nonempty p hs
    by_cases h11 : cmd = "history"
    · subst h11
      exact ⟨[], by simp [dispatchArgs], fun hs => by simp [cmdSuccess] at hs⟩
    · refine ⟨[], ?_, ?_⟩
      · simp [dispatchArgs, h1, h2, h3, h4, h5, h6, h7, h8, h9, h10, h11]
      · intro hs
        simp [cmdSuccess, h2, h3, h4, h5, h6, h7, h8, h9, h10] at hs

end FileExplorer

namespace FileExplorer

theorem runCmds_cons (s : Sys) (now : Nat) (line : String) (rest : List (Nat × String)) :
    runCmds s ((now, line) :: rest) =
      match split line with
      | [] => runCmds s rest
      | cmd :: args =>
          if cmd = "exit" ∨ cmd = "quit" then s
          else runCmds (dispatchArgs s now (cmd :: args)).1 rest := rfl

theorem succCount_cons (s : Sys) (now : Nat) (line : String) (rest : List (Nat × String)) :
    succCount s ((now, line) :: rest) =
      match split line with
      | [] => succCount s rest
      | cmd :: args =>
          if cmd = "exit" ∨ cmd = "quit" then 0
          else
            (if cmdSuccess s now (cmd :: args) then 1 else 0) +
              succCount (dispatchArgs s now (cmd :: args)).1 rest := rfl

theorem sorted_const_map (now : Nat) (l : List String) :
    List.Sorted (· ≤ ·) ((l.map (fun m => (now, m))).map Prod.fst) := by
  induction l with
  | nil => simp
  | cons a t ih =>
      simp only [List.map_cons, List.sorted_cons]
      refine ⟨?_, ih⟩
      intro b hb
      simp only [List.map_map, List.mem_map] at hb
      obtain ⟨x, _, rfl⟩ := hb
      exact le_rfl

theorem mem_const_map {now : Nat} {l : List String} {a : Nat}
    (h : a ∈ (l.map (fun m => (now, m))).map Prod.fst) : a = now := by
  simp only [List.map_map, List.mem_map] at h
  obtain ⟨x, _, rfl⟩ := h
  rfl

theorem runCmds_main (s : Sys) (cmds : List (Nat × String))
    (hts : List.Sorted (· ≤ ·) (cmds.map Prod.fst)) :
    ∃ tail : List (Nat × String),
      (runCmds s cmds).log = s.log ++ tail ∧
      succCount s cmds ≤ tail.length ∧
      List.Sorted (· ≤ ·) (tail.map Prod.fst) ∧
      (∀ t ∈ tail.map Prod.fst, t ∈ cmds.map Prod.fst) := by
  induction cmds generalizing s with
  | nil => exact ⟨[], by simp [runCmds], by simp [succCount], by simp, by simp⟩
  | cons hd rest ih =>
      obtain ⟨now, line⟩ := hd
      simp only [List.map_cons, List.sorted_cons] at hts
      cases hsp : split line with
      | nil =>
          obtain ⟨tail, ht1, ht2, ht3, ht4⟩ := ih s hts.2
          refine ⟨tail, ?_, ?_, ht3, ?_⟩
          · rw [runCmds_cons, hsp]
            exact ht1
          · rw [succCount_cons, hsp]
            exact ht2
          · intro t ht
            exact List.mem_cons_of_mem _ (ht4 t ht)
      | cons cmd cargs =>
          by_cases hex : cmd = "exit" ∨ cmd = "quit"
          · refine ⟨[], ?_, ?_, by simp, by simp⟩
            · rw [runCmds_cons, hsp]
              dsimp only
              rw [if_pos hex]
              simp
            · rw [succCount_cons, hsp]
              dsimp only
              rw [if_pos hex]
              simp
          · obtain ⟨msgs, hm1, hm2⟩ := dispatch_log_shape s now (cmd :: cargs)
            obtain ⟨tail2, ht1, ht2, ht3, ht4⟩ :=
              ih (dispatchArgs s now (cmd :: cargs)).1 hts.2
            refine ⟨msgs.map (fun m => (now, m)) ++ tail2, ?_, ?_, ?_, ?_⟩
            · rw [runCmds_cons, hsp]
              dsimp only
              rw [if_neg hex, ht1, hm1, List.append_assoc]
            · rw [succCount_cons, hsp]
              dsimp only
              rw [if_neg hex]
              by_cases hsucc : cmdSuccess s now (cmd :: cargs) = true
              · have hne := hm2 hsucc
                have hlen : 1 ≤ msgs.length := List.length_pos.mpr hne
                rw [if_pos hsucc]
                simp only [List.length_append, List.length_map]
                omega
              · rw [if_neg hsucc]
                simp only [List.length_append, List.length_map]
                omega
            · rw [List.map_append]
              refine List.pairwise_append.mpr ⟨sorted_const_map now msgs, ht3, ?_⟩
              intro a ha b hb
              rw [mem_const_map ha]
              exact hts.1 b (ht4 b hb)
            · intro t ht
              rw [List.map_append, List.mem_append] at ht
              rcases ht with ht | ht
              · rw [mem_const_map ht]
                exact List.mem_cons_self _ _
              · exact List.mem_cons_of_mem _ (ht4 t ht)

/-- C8: the claim fails on the code, because both `logAction` (source line
39) and `showHistory` (line 267) open `activity_log.txt` by a path
relative to the current working directory.  Evaluating the file-accurate
model at the failing input `pwd; mkdir sub; cd sub` from an empty root:
three operations succeed, but the third record — `changeDir` logs after a
successful `chdir` — lands in `sub/activity_log.txt`, the first two stay
in the old directory's file, and the subsequent history display shows one
record line instead of at least three.  Moreover the log file is an
ordinary file: after `pwd; rm activity_log.txt` the root log file holds
only the removal's own record — the record previously in it has been
deleted, contradicting "no operation of the system ever truncates,
rewrites, or deletes existing log records". -/
theorem claim8_cwd_relative_log :
    showHistoryF
        (runCmdsF ⟨Entry.dir true [], []⟩
          [(1, "pwd"), (2, "mkdir sub"), (3, "cd sub")]).root
        (runCmdsF ⟨Entry.dir true [], []⟩
          [(1, "pwd"), (2, "mkdir sub"), (3, "cd sub")]).cwd =
      ["----------- ACTIVITY LOG -----------",
       "[3] Changed directory to: sub",
       "------------------------------------"] ∧
    succCount ⟨Entry.dir true [], [], []⟩
        [(1, "pwd"), (2, "mkdir sub"), (3, "cd sub")] = 3 ∧
    contentAt
        (runCmdsF ⟨Entry.dir true [], []⟩
          [(1, "pwd"), (2, "mkdir sub"), (3, "cd sub")]).root
        (logPath []) =
      some (encodeLine (1, "Checked current directory.") ++
        encodeLine (2, "Created directory: sub")) ∧
    lookupE
        (runCmdsF ⟨Entry.dir true [], []⟩ [(1, "pwd"), (2, "rm activity_log.txt")]).root
        (logPath []) =
      some (Entry.file (encodeLine (2, "Removed: activity_log.txt")) 2) :=
  ⟨rfl, rfl, rfl, rfl⟩

end FileExplorer
